import Mathlib

/-!
Verification development for the deployment-scaffolding script
`scripts/CreateDeployments.py`.

The script's filesystem effects are shallowly embedded.  A directory is a
finite listing of named entries (in listing order); an entry is a file with
string contents or a subdirectory.  The script's functions are translated
into pure state-passing functions:

* `copyEs`/`copyT` embed `distutils.dir_util.copy_tree` (recursive copy,
  overwriting files, merging directories, keeping destination entries that
  the source does not name, skipping `.nfs`-prefixed entries, and
  redirecting a file into a same-named destination directory as
  `copy_file` does);
* `render_template` embeds the function of the same name (lines 24-34);
* `deploy_app` embeds the function of the same name (lines 37-52);
* `mainRun` embeds the `__main__` block (lines 55-92).

Process termination (`exit(1)` as well as uncaught exceptions, which also
end the interpreter with a nonzero status) is modelled with `Except`; each
error carries the filesystem state at the moment the run aborts, so that
"nothing was written" is expressible.
-/

/-- The JSON data mapping used as the render context, restricted to the
string-to-string fragment the script's templates exercise. -/
abbrev Ctx := List (String × String)

mutual
/-- A filesystem tree: a file with contents, or a directory. -/
inductive FSTree where
  | file (contents : String)
  | dir (entries : EntryList)

/-- The entries of a directory, in listing order. -/
inductive EntryList where
  | nil
  | cons (name : String) (tree : FSTree) (rest : EntryList)
end

deriving instance DecidableEq for FSTree, EntryList

deriving instance DecidableEq for Except

/-- Look up a directory entry by name (first occurrence). -/
def lookupEntry : EntryList → String → Option FSTree
  | .nil, _ => none
  | .cons m t r, n => if m = n then some t else lookupEntry r n

/-- Overwrite the entry named `n` in place, or append it if absent (the
effect of writing a file, or of `mkpath` creating a directory). -/
def setEntry : EntryList → String → FSTree → EntryList
  | .nil, n, t => .cons n t .nil
  | .cons m u r, n, t => if m = n then .cons m t r else .cons m u (setEntry r n t)

/-- Remove the entry named `n` (the effect of `os.remove`). -/
def removeEntry : EntryList → String → EntryList
  | .nil, _ => .nil
  | .cons m u r, n => if m = n then removeEntry r n else .cons m u (removeEntry r n)

/-- The names in a directory listing, in order (`os.listdir`). -/
def names : EntryList → List String
  | .nil => []
  | .cons m _ r => m :: names r

mutual
/-- Wellformedness of a tree: every directory lists distinct names, as a
real filesystem does. -/
def wfTree : FSTree → Bool
  | .file _ => true
  | .dir es => wfEntries es

/-- Wellformedness of a listing: distinct names at this level and in every
subdirectory. -/
def wfEntries : EntryList → Bool
  | .nil => true
  | .cons m t r => !(names r).contains m && wfTree t && wfEntries r
end

/-- Python `n.startswith(".nfs")`: the first four characters are `.nfs`.
`distutils.dir_util.copy_tree` skips such entries (NFS rename files). -/
def startsWithNfs (s : String) : Bool := s.data.take 4 == ['.', 'n', 'f', 's']

mutual
/-- A tree with every `.nfs`-prefixed entry removed, at every level: the
image of a tree under `copy_tree`. -/
def nfsFilterT : FSTree → FSTree
  | .file c => .file c
  | .dir es => .dir (nfsFilterE es)

/-- A listing with every `.nfs`-prefixed entry removed, at every level. -/
def nfsFilterE : EntryList → EntryList
  | .nil => .nil
  | .cons n t r =>
      if startsWithNfs n then nfsFilterE r
      else .cons n (nfsFilterT t) (nfsFilterE r)
end

mutual
/-- No entry of the tree, at any level, carries the `.nfs` prefix. -/
def nfsFreeTree : FSTree → Bool
  | .file _ => true
  | .dir es => nfsFreeEntries es

/-- No entry of the listing, at any level, carries the `.nfs` prefix. -/
def nfsFreeEntries : EntryList → Bool
  | .nil => true
  | .cons n t r => !startsWithNfs n && nfsFreeTree t && nfsFreeEntries r
end

/-- Python `fname.endswith(".j2")`: the last three characters are `.j2`. -/
def endsWithJ2 (s : String) : Bool := s.data.reverse.take 3 == ['2', 'j', '.']

/-- Python `fname[:-3]`: the name with its last three characters removed
(empty when the name has at most three characters). -/
def dropLast3 (s : String) : String := String.mk (s.data.reverse.drop 3).reverse

/-- The opening-brace character of a Jinja variable tag. -/
def lbrace : Char := Char.ofNat 123

/-- The closing-brace character of a Jinja variable tag. -/
def rbrace : Char := Char.ofNat 125

/-- Look a key up in the data mapping. -/
def lookupCtx : Ctx → String → Option String
  | [], _ => none
  | (k, v) :: r, n => if k = n then some v else lookupCtx r n

/-- Strip leading and trailing spaces from a variable name inside a tag. -/
def trimSpaces (cs : List Char) : List Char :=
  ((cs.dropWhile (fun c => c == ' ')).reverse.dropWhile (fun c => c == ' ')).reverse

/-- Scanner state for the Jinja variable-substitution fragment. -/
inductive RMode where
  | text
  | sawOpen
  | inVar (acc : List Char)
  | sawClose (acc : List Char)

/-- One step of the variable-substitution scanner.  The accumulated output
is kept reversed.  An absent key renders as the empty string, matching
Jinja's default `Undefined`. -/
def renderStep (ctx : Ctx) : RMode × List Char → Char → RMode × List Char
  | (.text, out), c => if c = lbrace then (.sawOpen, out) else (.text, c :: out)
  | (.sawOpen, out), c => if c = lbrace then (.inVar [], out) else (.text, c :: lbrace :: out)
  | (.inVar acc, out), c =>
      if c = rbrace then (.sawClose acc, out) else (.inVar (c :: acc), out)
  | (.sawClose acc, out), c =>
      if c = rbrace then
        (.text, ((lookupCtx ctx (String.mk (trimSpaces acc.reverse))).getD "").data.reverse ++ out)
      else (.inVar (c :: rbrace :: acc), out)

/-- Flush a trailing unfinished tag verbatim at end of input. -/
def renderFlush : RMode × List Char → List Char
  | (.text, out) => out
  | (.sawOpen, out) => lbrace :: out
  | (.inVar acc, out) => acc ++ lbrace :: lbrace :: out
  | (.sawClose acc, out) => rbrace :: acc ++ lbrace :: lbrace :: out

/-- Jinja rendering, restricted to the variable-substitution fragment the
script's templates exercise: a double-brace tag around a name is replaced
by the context value for that (space-trimmed) name, the empty string when
the key is absent (Jinja's default `Undefined`); all other text is copied
verbatim.  Rendering is total and deterministic. -/
def renderJinja (s : String) (ctx : Ctx) : String :=
  String.mk (renderFlush (s.data.foldl (renderStep ctx) (.text, []))).reverse

/-- The ways a run can abort: the explicit `exit(1)` for a missing source
directory, and the uncaught exceptions the library calls can raise. -/
inductive DeployError where
  /-- Line 42: `exit(1)` after the source-directory existence check fails. -/
  | exitOne
  /-- `copy_tree` raises when the source path exists but is not a directory. -/
  | notADirectory
  /-- `mkpath` inside `copy_tree` raises when the destination path exists as a file. -/
  | mkpathFailed
  /-- `copy_file` inside `copy_tree` redirects a file whose destination path
  is a directory into that directory (`dst/n/n`); it raises only when that
  inner path is itself a directory. -/
  | copyFileIntoDirFailed
  /-- `mkpath` inside `copy_tree` raises when creating a directory over a file. -/
  | copyDirOverFile
  /-- `get_template` raises `TemplateNotFound`: the loader only accepts
  regular files, so a directory at the template path is not found. -/
  | templateNotFound
  /-- `open(..., "w+")` raises `IsADirectoryError` when the output path is a
  directory. -/
  | isADirectory
deriving DecidableEq

/-- Lines 24-34, `render_template(dest_dir, template_name, file_name,
input_json)`: if no entry named `template_name` exists the function returns
silently; a directory at that name passes the `os.path.exists` check but
makes `get_template` raise `TemplateNotFound`; otherwise the rendered text
is written to `file_name` (overwriting an existing file; `IsADirectoryError`
if that path is a directory, including the degenerate output names \x22\x22,
`.` and `..` — produced by templates named `.j2`, `..j2` and `...j2` —
which `os.path.join` resolves to the destination directory itself or its
parent), and only then is the template file removed. -/
def render_template (dest : EntryList) (templateName fileName : String) (ctx : Ctx) :
    Except DeployError EntryList :=
  match lookupEntry dest templateName with
  | none => .ok dest
  | some (.dir _) => .error .templateNotFound
  | some (.file contents) =>
      let rendered := renderJinja contents ctx
      if fileName = "" ∨ fileName = "." ∨ fileName = ".." then .error .isADirectory
      else
        match lookupEntry dest fileName with
        | some (.dir _) => .error .isADirectory
        | _ => .ok (removeEntry (setEntry dest fileName (.file rendered)) templateName)

/-- Lines 48-50, the render loop of `deploy_app`: iterate over a snapshot of
`os.listdir(dest_dir)` taken once before the loop, and render every name
ending in `.j2`.  On an uncaught exception the error carries the
destination state at that moment (the failing render has not modified it). -/
def renderPass : List String → Ctx → EntryList → Except (DeployError × EntryList) EntryList
  | [], _, es => .ok es
  | n :: rest, ctx, es =>
      if endsWithJ2 n then
        match render_template es n (dropLast3 n) ctx with
        | .error e => .error (e, es)
        | .ok es' => renderPass rest ctx es'
      else renderPass rest ctx es

mutual
/-- One source entry of `distutils.dir_util.copy_tree`, named `n`, copied
onto the destination entry of the same name (`old`): files overwrite
files; a file whose destination is a directory is redirected by
`copy_file` into that directory (written at `dst/n/n`, raising only when
that inner path is itself a directory); directories merge recursively; a
directory over a file raises (`mkpath`).  On error the carried tree is the
state of the destination entry at that moment. -/
def copyT : String → FSTree → Option FSTree → Except (DeployError × FSTree) FSTree
  | n, .file c, old =>
      match old with
      | some (.dir d) =>
          match lookupEntry d n with
          | some (.dir _) => .error (.copyFileIntoDirFailed, .dir d)
          | _ => .ok (.dir (setEntry d n (.file c)))
      | _ => .ok (.file c)
  | _, .dir es, old =>
      match old with
      | some (.file c) => .error (.copyDirOverFile, .file c)
      | some (.dir bs) =>
          match copyEs es bs with
          | .error (e, p) => .error (e, .dir p)
          | .ok r => .ok (.dir r)
      | none =>
          match copyEs es .nil with
          | .error (e, p) => .error (e, .dir p)
          | .ok r => .ok (.dir r)

/-- `copy_tree`: copy every source entry, in listing order, onto the
destination listing, skipping entries whose name starts with `.nfs` (NFS
rename files); destination entries the source does not name are kept.  On
error the carried listing is the partially-copied destination. -/
def copyEs : EntryList → EntryList → Except (DeployError × EntryList) EntryList
  | .nil, dst => .ok dst
  | .cons n t rest, dst =>
      if startsWithNfs n then copyEs rest dst
      else
        match copyT n t (lookupEntry dst n) with
        | .error (e, t') => .error (e, setEntry dst n t')
        | .ok t' => copyEs rest (setEntry dst n t')
end

/-- Lines 37-52, `deploy_app(opts)`: exit with status 1 if the source path
does not exist (before anything is copied); otherwise `copy_tree` the
source onto the destination (creating it if absent), then render every
top-level `.j2` name from a single `os.listdir` snapshot.  On error the
result carries the destination tree at the abort (for `exitOne` the
destination argument itself, untouched). -/
def deploy_app (src : Option FSTree) (dest : Option FSTree) (ctx : Ctx) :
    Except (DeployError × Option FSTree) EntryList :=
  match src with
  | none => .error (.exitOne, dest)
  | some (.file _) => .error (.notADirectory, dest)
  | some (.dir srcEs) =>
      match dest with
      | some (.file _) => .error (.mkpathFailed, dest)
      | _ =>
          let d0 := match dest with
            | some (.dir es) => es
            | _ => .nil
          match copyEs srcEs d0 with
          | .error (e, d) => .error (e, some (.dir d))
          | .ok d1 =>
              match renderPass (names d1) ctx d1 with
              | .error (e, d) => .error (e, some (.dir d))
              | .ok d2 => .ok d2

/-- The parsed command-line arguments (lines 56-69).  Every value option
defaults to `None` when omitted, since none is declared required. -/
structure CmdArgs where
  fullStack : Bool
  template : Option String
  app : Option String
  input : Option String
  destination : Option String

/-- The ways the `__main__` block can abort. -/
inductive MainError where
  /-- An argparse missing-required-argument rejection.  The script declares
  no required argument, so this error is never produced; it exists so that
  the claim that an invocation "fails as a missing-argument error" is
  statable. -/
  | missingArgument
  /-- `TypeError` from `os.path.join` when one of its components is `None`. -/
  | typeError
  /-- An abort inside `deploy_app`. -/
  | deploy (e : DeployError)
deriving DecidableEq

/-- Lines 56-69: the argparse setup declares `--fullStack` (store_true,
default false) and the four value options `-t`, `-a`, `-i`, `-d`, none with
`required=True`; parsing therefore accepts every combination of provided
and omitted options. -/
def parseArgs (a : CmdArgs) : Except MainError CmdArgs := .ok a

/-- Line 9: the component registry. -/
def components : List String := ["lambda"]

/-- The `opts` dictionary built by `__main__`: the data mapping (set once at
lines 76-79) and the per-application fields overwritten on every loop
iteration (lines 84-86, 89-91).  Paths are lists of segments relative to
the working directory. -/
structure Opts where
  inputJSON : Ctx
  app : String
  srcDir : List String
  destDir : List String

/-- Resolve a path (list of segments) in a directory tree. -/
def getPath : List String → EntryList → Option FSTree
  | [], es => some (.dir es)
  | [n], es => lookupEntry es n
  | n :: rest, es =>
      match lookupEntry es n with
      | some (.dir sub) => getPath rest sub
      | _ => none

/-- Write a tree at a path, creating intermediate directories as `mkpath`
does.  (Python's `mkpath` raises when an intermediate path component exists
as a regular file; that corner is not exercised by any claim, and this
model overwrites such a component instead.) -/
def setPath : EntryList → List String → FSTree → EntryList
  | es, [], t =>
      match t with
      | .dir sub => sub
      | .file _ => es
  | es, [n], t => setEntry es n t
  | es, n :: rest, t =>
      match lookupEntry es n with
      | some (.dir sub) => setEntry es n (.dir (setPath sub rest t))
      | _ => setEntry es n (.dir (setPath .nil rest t))

/-- Run `deploy_app` for source and destination paths inside the working
directory tree `root`, reflecting the result (or the state at an abort)
back into `root`. -/
def deployAt (root : EntryList) (srcP dstP : List String) (ctx : Ctx) :
    Except (MainError × EntryList) EntryList :=
  match deploy_app (getPath srcP root) (getPath dstP root) ctx with
  | .error (e, st) =>
      .error (.deploy e,
        match st with
        | none => root
        | some t => setPath root dstP t)
  | .ok d => .ok (setPath root dstP (.dir d))

/-- One iteration of the full-stack loop (lines 84-87): overwrite the
per-component fields of `opts` and call `deploy_app`.  The returned `Opts`
is the mutated dictionary. -/
def stackStep (t d : String) (fs : EntryList) (opts : Opts) (comp : String) :
    Except (MainError × EntryList) (EntryList × Opts) :=
  let opts' := { opts with srcDir := [t, comp], destDir := [d, comp], app := comp }
  match deployAt fs opts'.srcDir opts'.destDir opts'.inputJSON with
  | .error err => .error err
  | .ok fs' => .ok (fs', opts')

/-- The full-stack loop (lines 82-87) over a component list, threading the
filesystem and the mutated `opts` dictionary, and recording the render
context passed to each `deploy_app` call. -/
def stackLoop (t d : String) :
    List String → EntryList → Opts → Except (MainError × EntryList) (EntryList × Opts × List Ctx)
  | [], fs, opts => .ok (fs, opts, [])
  | c :: cs, fs, opts =>
      match stackStep t d fs opts c with
      | .error err => .error err
      | .ok (fs', opts') =>
          match stackLoop t d cs fs' opts' with
          | .error err => .error err
          | .ok (fs'', opts'', trace) => .ok (fs'', opts'', opts'.inputJSON :: trace)

/-- Lines 55-92, the `__main__` block: parse the arguments, then either loop
over the component registry (full-stack mode) or deploy the single named
application.  `config` is the mapping loaded from the input JSON file
(lines 76-79; JSON decoding itself is out of the spec's scope), `root` the
working-directory tree.  A successful run returns the final tree and the
list of render contexts passed to the `deploy_app` calls; an abort carries
the tree at that moment.  `os.path.join` with a `None` component (an
omitted option) raises `TypeError`. -/
def mainRun (args : CmdArgs) (config : Ctx) (root : EntryList) :
    Except (MainError × EntryList) (EntryList × List Ctx) :=
  match parseArgs args with
  | .error e => .error (e, root)
  | .ok a =>
      if a.fullStack then
        match a.template, a.destination with
        | some t, some d =>
            match stackLoop t d components root (Opts.mk config "" [] []) with
            | .error err => .error err
            | .ok (fs, _, trace) => .ok (fs, trace)
        | _, _ => .error (.typeError, root)
      else
        match a.template, a.destination, a.app with
        | some t, some d, some ap =>
            match deployAt root [t, ap] [d, ap] config with
            | .error err => .error err
            | .ok fs => .ok (fs, [config])
        | _, _, _ => .error (.typeError, root)

/-- The observable process exit status of a run: 0 on success, 2 for an
argparse rejection, and 1 both for the explicit `exit(1)` and for an
uncaught exception (CPython ends with status 1 on an unhandled traceback). -/
def exitStatusOf : Except (MainError × EntryList) (EntryList × List Ctx) → Nat
  | .ok _ => 0
  | .error (.missingArgument, _) => 2
  | .error _ => 1

/-! ### Basic listing lemmas -/

/-- Structural induction over a listing (the `induction` tactic cannot use
the mutual recursor directly). -/
theorem entryListInduction {P : EntryList → Prop}
    (nil : P .nil) (cons : ∀ n t r, P r → P (.cons n t r)) : ∀ es, P es
  | .nil => nil
  | .cons n t r => cons n t r (entryListInduction nil cons r)

mutual

/-- Mutual structural induction over trees. -/
theorem treeMutualInduction {P : FSTree → Prop} {Q : EntryList → Prop}
    (file : ∀ c, P (.file c)) (dir : ∀ es, Q es → P (.dir es))
    (nil : Q .nil) (cons : ∀ n t r, P t → Q r → Q (.cons n t r)) : ∀ t, P t
  | .file c => file c
  | .dir es => dir es (entryListMutualInduction file dir nil cons es)

/-- Mutual structural induction over listings. -/
theorem entryListMutualInduction {P : FSTree → Prop} {Q : EntryList → Prop}
    (file : ∀ c, P (.file c)) (dir : ∀ es, Q es → P (.dir es))
    (nil : Q .nil) (cons : ∀ n t r, P t → Q r → Q (.cons n t r)) : ∀ es, Q es
  | .nil => nil
  | .cons n t r =>
      cons n t r (treeMutualInduction file dir nil cons t)
        (entryListMutualInduction file dir nil cons r)

end

theorem lookup_setEntry (n : String) (t : FSTree) :
    ∀ (es : EntryList) (m : String),
      lookupEntry (setEntry es n t) m = if n = m then some t else lookupEntry es m := by
  intro es
  induction es using entryListInduction with
  | nil => intro m; simp [setEntry, lookupEntry]
  | cons a u r ih =>
      intro m
      by_cases han : a = n
      · subst han
        simp only [setEntry, if_pos rfl, lookupEntry]
        by_cases ham : a = m
        · simp [ham]
        · simp [ham]
      · simp only [setEntry, if_neg han, lookupEntry]
        by_cases ham : a = m
        · have hnm : n ≠ m := fun h => han (ham.trans h.symm)
          simp [ham, hnm]
        · simp [ham, ih]

theorem lookup_removeEntry (n : String) :
    ∀ (es : EntryList) (m : String),
      lookupEntry (removeEntry es n) m = if n = m then none else lookupEntry es m := by
  intro es
  induction es using entryListInduction with
  | nil => intro m; simp [removeEntry, lookupEntry]
  | cons a u r ih =>
      intro m
      by_cases han : a = n
      · subst han
        have hrem : removeEntry (.cons a u r) a = removeEntry r a := by
          simp [removeEntry]
        rw [hrem, ih]
        by_cases ham : a = m
        · simp [ham]
        · simp [ham, lookupEntry]
      · simp only [removeEntry, if_neg han, lookupEntry]
        by_cases ham : a = m
        · have hnm : n ≠ m := fun h => han (ham.trans h.symm)
          simp [ham, hnm]
        · simp [ham, ih]

theorem setEntry_self : ∀ (es : EntryList) (n : String) (t : FSTree),
    lookupEntry es n = some t → setEntry es n t = es := by
  intro es
  induction es using entryListInduction with
  | nil => intro n t h; simp [lookupEntry] at h
  | cons a u r ih =>
      intro n t h
      by_cases han : a = n
      · subst han
        simp [lookupEntry] at h
        simp [setEntry, h]
      · simp [lookupEntry, han] at h
        simp [setEntry, han, ih n t h]

theorem mem_names_iff_lookup : ∀ (es : EntryList) (m : String),
    m ∈ names es ↔ (lookupEntry es m).isSome := by
  intro es
  induction es using entryListInduction with
  | nil => intro m; simp [names, lookupEntry]
  | cons a u r ih =>
      intro m
      by_cases ham : a = m
      · subst ham; simp [names, lookupEntry]
      · have ham' : ¬ m = a := fun h => ham h.symm
        simp [names, lookupEntry, ham, ham', ih]

theorem lookup_eq_none_of_not_mem {es : EntryList} {m : String}
    (h : ¬ m ∈ names es) : lookupEntry es m = none := by
  have := (mem_names_iff_lookup es m).not.mp h
  cases hl : lookupEntry es m with
  | none => rfl
  | some t => rw [hl] at this; simp at this

theorem mem_names_of_lookup {es : EntryList} {m : String} {t : FSTree}
    (h : lookupEntry es m = some t) : m ∈ names es := by
  rw [mem_names_iff_lookup, h]; rfl

theorem names_setEntry_mem (n : String) (t : FSTree) :
    ∀ es : EntryList, n ∈ names es → names (setEntry es n t) = names es := by
  intro es
  induction es using entryListInduction with
  | nil => intro h; simp [names] at h
  | cons a u r ih =>
      intro h
      by_cases han : a = n
      · subst han; simp [setEntry, names]
      · have : n ∈ names r := by
          rcases List.mem_cons.mp (by simpa [names] using h) with h' | h'
          · exact absurd h'.symm han
          · exact h'
        simp [setEntry, han, names, ih this]

theorem names_setEntry_new (n : String) (t : FSTree) :
    ∀ es : EntryList, ¬ n ∈ names es → names (setEntry es n t) = names es ++ [n] := by
  intro es
  induction es using entryListInduction with
  | nil => intro _; simp [setEntry, names]
  | cons a u r ih =>
      intro h
      have han : a ≠ n := by
        intro h'; exact h (by simp [names, h'])
      have hr : ¬ n ∈ names r := by
        intro h'; exact h (by simp [names, h'])
      simp [setEntry, han, names, ih hr]

theorem mem_names_setEntry (n : String) (t : FSTree) (es : EntryList) (m : String) :
    m ∈ names (setEntry es n t) ↔ m = n ∨ m ∈ names es := by
  rw [mem_names_iff_lookup, lookup_setEntry]
  by_cases h : n = m
  · simp [h]
  · have h' : ¬ m = n := fun hh => h hh.symm
    simp [h, h', mem_names_iff_lookup]

theorem mem_names_removeEntry (n : String) (es : EntryList) (m : String) :
    m ∈ names (removeEntry es n) ↔ n ≠ m ∧ m ∈ names es := by
  rw [mem_names_iff_lookup, lookup_removeEntry]
  by_cases h : n = m
  · simp [h]
  · simp [h, mem_names_iff_lookup]

theorem wfEntries_cons {m : String} {t : FSTree} {r : EntryList} :
    wfEntries (.cons m t r) = true ↔ ¬ m ∈ names r ∧ wfTree t = true ∧ wfEntries r = true := by
  simp [wfEntries, Bool.and_eq_true, List.contains, List.elem_iff, and_assoc]

theorem wf_setEntry (n : String) (t : FSTree) :
    ∀ es : EntryList, wfEntries es = true → wfTree t = true →
      wfEntries (setEntry es n t) = true := by
  intro es
  induction es using entryListInduction with
  | nil => intro _ ht; simp [setEntry, wfEntries, wfTree, names, ht, List.contains]
  | cons a u r ih =>
      intro hwf ht
      rcases wfEntries_cons.mp hwf with ⟨hmem, hu, hr⟩
      by_cases han : a = n
      · subst han
        simp only [setEntry, if_pos rfl]
        exact wfEntries_cons.mpr ⟨hmem, ht, hr⟩
      · simp only [setEntry, if_neg han]
        refine wfEntries_cons.mpr ⟨?_, hu, ih hr ht⟩
        rw [mem_names_setEntry]
        rintro (h | h)
        · exact han h
        · exact hmem h

theorem wf_removeEntry (n : String) :
    ∀ es : EntryList, wfEntries es = true → wfEntries (removeEntry es n) = true := by
  intro es
  induction es using entryListInduction with
  | nil => intro _; simp [removeEntry, wfEntries]
  | cons a u r ih =>
      intro hwf
      rcases wfEntries_cons.mp hwf with ⟨hmem, hu, hr⟩
      by_cases han : a = n
      · subst han
        simpa [removeEntry] using ih hr
      · simp only [removeEntry, if_neg han]
        refine wfEntries_cons.mpr ⟨?_, hu, ih hr⟩
        rw [mem_names_removeEntry]
        rintro ⟨_, h⟩
        exact hmem h

theorem nodup_names_of_wf : ∀ es : EntryList, wfEntries es = true → (names es).Nodup := by
  intro es
  induction es using entryListInduction with
  | nil => intro _; simp [names]
  | cons a u r ih =>
      intro hwf
      rcases wfEntries_cons.mp hwf with ⟨hmem, _, hr⟩
      simpa [names] using ⟨hmem, ih hr⟩

/-! ### Marker-suffix lemmas -/

theorem data_of_endsWithJ2 {s : String} (h : endsWithJ2 s = true) :
    s.data = (dropLast3 s).data ++ ['.', 'j', '2'] := by
  have h3 : s.data.reverse.take 3 = ['2', 'j', '.'] := by
    simpa [endsWithJ2] using h
  have hsplit : s.data.reverse = ['2', 'j', '.'] ++ s.data.reverse.drop 3 := by
    conv_lhs => rw [← List.take_append_drop 3 s.data.reverse]
    rw [h3]
  have hd : s.data = (s.data.reverse).reverse := (List.reverse_reverse _).symm
  rw [hd, hsplit]
  simp [dropLast3]

theorem dropLast3_length {s : String} (h : endsWithJ2 s = true) :
    (dropLast3 s).data.length + 3 = s.data.length := by
  rw [data_of_endsWithJ2 h]
  simp

theorem dropLast3_ne {s : String} (h : endsWithJ2 s = true) : dropLast3 s ≠ s := by
  intro he
  have hl := dropLast3_length h
  rw [he] at hl
  omega

theorem dropLast3_inj {a b : String} (ha : endsWithJ2 a = true) (hb : endsWithJ2 b = true)
    (h : dropLast3 a = dropLast3 b) : a = b := by
  have hda := data_of_endsWithJ2 ha
  have hdb := data_of_endsWithJ2 hb
  apply String.ext
  rw [hda, hdb, h]

/-! ### Rendering-step lemmas -/

theorem render_template_skip {dest : EntryList} {t f : String} {ctx : Ctx}
    (h : lookupEntry dest t = none) : render_template dest t f ctx = .ok dest := by
  simp [render_template, h]

theorem render_template_dir {dest : EntryList} {t f : String} {ctx : Ctx} {sub : EntryList}
    (h : lookupEntry dest t = some (.dir sub)) :
    render_template dest t f ctx = .error .templateNotFound := by
  simp [render_template, h]

theorem render_template_ok_file {dest : EntryList} {t f : String} {ctx : Ctx} {c : String}
    (hl : lookupEntry dest t = some (.file c)) (hf : ¬ (f = "" ∨ f = "." ∨ f = ".."))
    (hout : ∀ sub, lookupEntry dest f ≠ some (.dir sub)) :
    render_template dest t f ctx =
      .ok (removeEntry (setEntry dest f (.file (renderJinja c ctx))) t) := by
  simp only [render_template, hl, if_neg hf]

theorem render_template_ok_cases {dest : EntryList} {t f : String} {ctx : Ctx} {es' : EntryList}
    (h : render_template dest t f ctx = .ok es') :
    (lookupEntry dest t = none ∧ es' = dest) ∨
    (∃ c, lookupEntry dest t = some (.file c) ∧ ¬ (f = "" ∨ f = "." ∨ f = "..") ∧
      (∀ sub, lookupEntry dest f ≠ some (.dir sub)) ∧
      es' = removeEntry (setEntry dest f (.file (renderJinja c ctx))) t) := by
  cases hl : lookupEntry dest t with
  | none =>
      left
      refine ⟨rfl, ?_⟩
      rw [render_template_skip hl] at h
      exact (Except.ok.inj h).symm
  | some u =>
      cases u with
      | dir sub => rw [render_template_dir hl] at h; cases h
      | file c =>
          right
          by_cases hf : f = "" ∨ f = "." ∨ f = ".."
          · exfalso
            simp only [render_template, hl, if_pos hf] at h
            exact Except.noConfusion h
          · have hout : ∀ sub, lookupEntry dest f ≠ some (.dir sub) := by
              intro sub hlf
              simp only [render_template, hl, if_neg hf] at h
              rw [hlf] at h
              simp at h
            refine ⟨c, rfl, hf, hout, ?_⟩
            rw [render_template_ok_file hl hf hout] at h
            exact (Except.ok.inj h).symm

theorem render_template_error_kind {dest : EntryList} {t f : String} {ctx : Ctx} {e : DeployError}
    (h : render_template dest t f ctx = .error e) :
    e = .templateNotFound ∨ e = .isADirectory := by
  cases hl : lookupEntry dest t with
  | none => rw [render_template_skip hl] at h; cases h
  | some u =>
      cases u with
      | dir sub =>
          rw [render_template_dir hl] at h
          exact Or.inl (Except.error.inj h).symm
      | file c =>
          simp only [render_template, hl] at h
          split at h
          · exact Or.inr (Except.error.inj h).symm
          · split at h
            · exact Or.inr (Except.error.inj h).symm
            · cases h

/-! ### Claims settled directly on `render_template` and the render loop -/

/-- C4: when no entry with the template's name exists in the destination
directory, `render_template` returns with the destination unchanged — no
output is written, nothing is deleted, and no error is raised (the silent
skip of lines 27-28). -/
theorem claim_C4 : ∀ (dest : EntryList) (t f : String) (ctx : Ctx),
    lookupEntry dest t = none → render_template dest t f ctx = .ok dest := by
  intro dest t f ctx h
  exact render_template_skip h

/-- Witness for C4 at a concrete input: a destination holding only
`config.yaml`, rendered for the absent template name `a.j2`, is returned
unchanged. -/
theorem claim_C4_witness :
    lookupEntry (.cons "config.yaml" (.file "k: v") .nil) "a.j2" = none ∧
    render_template (.cons "config.yaml" (.file "k: v") .nil) "a.j2" "a" [] =
      .ok (.cons "config.yaml" (.file "k: v") .nil) :=
  ⟨by decide, claim_C4 (.cons "config.yaml" (.file "k: v") .nil) "a.j2" "a" [] (by decide)⟩

/-- C9: the template file is deleted only after the rendered output has been
written: every abort of `render_template` (template loading or the output
write raising) happens before any mutation, so the marked file is still
present in the destination — the deletion at line 34 is the last step. -/
theorem claim_C9 : ∀ (dest : EntryList) (t f : String) (ctx : Ctx) (e : DeployError),
    render_template dest t f ctx = .error e → (lookupEntry dest t).isSome = true := by
  intro dest t f ctx e h
  cases hl : lookupEntry dest t with
  | none => rw [render_template_skip hl] at h; cases h
  | some u => rfl

/-- Witness for C9 at a concrete input: rendering fails on a directory named
`x.j2` (template loading raises), and the marked entry is still present. -/
theorem claim_C9_witness :
    render_template (.cons "x.j2" (.dir .nil) .nil) "x.j2" "x" [] =
      .error .templateNotFound ∧
    (lookupEntry (.cons "x.j2" (.dir .nil) .nil) "x.j2").isSome = true :=
  ⟨by decide, claim_C9 (.cons "x.j2" (.dir .nil) .nil) "x.j2" "x" [] .templateNotFound (by decide)⟩

/-- C10: the render loop selects entries purely by the name test
`endswith(".j2")` over the `os.listdir` snapshot, which lists directories
too; a top-level subdirectory whose name ends in `.j2` is therefore passed
to `render_template` and passes its `os.path.exists` check (it is not
silently skipped), after which template loading aborts the run. -/
theorem claim_C10 :
    (∀ (n : String) (t : FSTree) (r : EntryList), names (.cons n t r) = n :: names r) ∧
    (∀ (es : EntryList) (n : String) (sub : EntryList) (rest : List String) (ctx : Ctx),
      endsWithJ2 n = true →
      lookupEntry es n = some (.dir sub) →
      renderPass (n :: rest) ctx es = .error (.templateNotFound, es)) := by
  constructor
  · intro n t r
    rfl
  · intro es n sub rest ctx hj2 hl
    simp [renderPass, hj2, render_template_dir hl]

/-- Witness for C10 at a concrete input: a destination whose only entry is a
directory named `sub.j2` makes the render loop abort with
`TemplateNotFound` instead of skipping the entry. -/
theorem claim_C10_witness :
    names (.cons "sub.j2" (.dir .nil) .nil) = ["sub.j2"] ∧
    renderPass ["sub.j2"] [] (.cons "sub.j2" (.dir .nil) .nil) =
      .error (.templateNotFound, .cons "sub.j2" (.dir .nil) .nil) :=
  ⟨by decide,
   claim_C10.2 (.cons "sub.j2" (.dir .nil) .nil) "sub.j2" .nil [] [] (by decide) (by decide)⟩

/-- C2 (corrected): a marked file directly inside the destination whose
stripped output name is not degenerate (empty, `.` or `..`) is rendered to a
file named by stripping its last three characters, overwriting any existing
file of that name, and the marked original is deleted afterwards; in
particular, deploying a source holding `greeting.txt.j2` with contents
`Hello, \x7b\x7b name \x7d\x7d!` against the mapping `name = Ada` yields a
destination holding exactly `greeting.txt` with contents `Hello, Ada!`.
As stated the claim is false: for the in-scope template names `.j2`, `..j2`
and `...j2` the write to the stripped output name raises IsADirectoryError
and the run aborts (see `claim_C2_cex`). -/
theorem claim_C2 :
    (∀ (es : EntryList) (t : String) (ctx : Ctx) (c : String),
      endsWithJ2 t = true →
      lookupEntry es t = some (.file c) →
      ¬ (dropLast3 t = "" ∨ dropLast3 t = "." ∨ dropLast3 t = "..") →
      (∀ sub, lookupEntry es (dropLast3 t) ≠ some (.dir sub)) →
      ∃ es', render_template es t (dropLast3 t) ctx = .ok es' ∧
        lookupEntry es' (dropLast3 t) = some (.file (renderJinja c ctx)) ∧
        lookupEntry es' t = none) ∧
    deploy_app (some (.dir (.cons "greeting.txt.j2"
        (.file "Hello, \x7b\x7b name \x7d\x7d!") .nil))) none [("name", "Ada")] =
      .ok (.cons "greeting.txt" (.file "Hello, Ada!") .nil) := by
  constructor
  · intro es t ctx c hj2 hl hne hout
    refine ⟨_, render_template_ok_file hl hne hout, ?_, ?_⟩
    · rw [lookup_removeEntry, lookup_setEntry]
      have hts : t ≠ dropLast3 t := fun h => dropLast3_ne hj2 h.symm
      simp [hts]
    · rw [lookup_removeEntry]
      simp
  · rfl

/-- Witness for C2 at the concrete greeting input, discharging every
hypothesis of the universally quantified part. -/
theorem claim_C2_witness :
    ∃ es', render_template (.cons "greeting.txt.j2"
        (.file "Hello, \x7b\x7b name \x7d\x7d!") .nil) "greeting.txt.j2"
        (dropLast3 "greeting.txt.j2") [("name", "Ada")] = .ok es' ∧
      lookupEntry es' (dropLast3 "greeting.txt.j2") =
        some (.file (renderJinja "Hello, \x7b\x7b name \x7d\x7d!" [("name", "Ada")])) ∧
      lookupEntry es' "greeting.txt.j2" = none :=
  claim_C2.1 (.cons "greeting.txt.j2" (.file "Hello, \x7b\x7b name \x7d\x7d!") .nil)
    "greeting.txt.j2" [("name", "Ada")] "Hello, \x7b\x7b name \x7d\x7d!"
    (by decide) (by decide) (by decide) (fun sub h => Option.noConfusion h)

/-- Counterexample to C2 as originally stated: the template `..j2` is marked
and present, yet its stripped output name is `.`, a directory reference; the
program's `open(os.path.join(dest, "."), "w+")` raises IsADirectoryError, so
the render aborts the run instead of writing an output and deleting the
template. -/
theorem claim_C2_cex :
    endsWithJ2 "..j2" = true ∧
    dropLast3 "..j2" = "." ∧
    render_template (.cons "..j2" (.file "x") .nil) "..j2" (dropLast3 "..j2") [] =
      .error .isADirectory ∧
    deploy_app (some (.dir (.cons "..j2" (.file "x") .nil))) none [] =
      .error (.isADirectory, some (.dir (.cons "..j2" (.file "x") .nil))) := by
  refine ⟨by decide, by decide, rfl, rfl⟩

/-! ### Error-kind and orchestration lemmas -/

/-- Package of the two mutual induction principles. -/
theorem fs_mutual_induction {P : FSTree → Prop} {Q : EntryList → Prop}
    (file : ∀ c, P (.file c)) (dir : ∀ es, Q es → P (.dir es))
    (nil : Q .nil) (cons : ∀ n t r, P t → Q r → Q (.cons n t r)) :
    (∀ t, P t) ∧ (∀ es, Q es) :=
  ⟨treeMutualInduction file dir nil cons, entryListMutualInduction file dir nil cons⟩

theorem copy_error_kind :
    (∀ t : FSTree, ∀ (n : String) old e t', copyT n t old = .error (e, t') →
      e = .copyFileIntoDirFailed ∨ e = .copyDirOverFile) ∧
    (∀ es : EntryList, ∀ dst e d', copyEs es dst = .error (e, d') →
      e = .copyFileIntoDirFailed ∨ e = .copyDirOverFile) := by
  apply fs_mutual_induction
  · intro c n old e t' h
    cases old with
    | none => simp [copyT] at h
    | some u =>
        cases u with
        | file c2 => simp [copyT] at h
        | dir d =>
            simp only [copyT] at h
            cases hl : lookupEntry d n with
            | none => simp only [hl] at h; exact Except.noConfusion h
            | some v =>
                cases v with
                | file c2 => simp only [hl] at h; exact Except.noConfusion h
                | dir dd =>
                    simp only [hl] at h
                    exact Or.inl (Prod.mk.injEq .. ▸ (Except.error.inj h)).1.symm
  · intro es ih n old e t' h
    cases old with
    | none =>
        simp only [copyT] at h
        cases hc : copyEs es .nil with
        | error p =>
            obtain ⟨e1, p1⟩ := p
            rw [hc] at h
            exact (Prod.mk.injEq .. ▸ (Except.error.inj h)).1 ▸ ih _ _ _ hc
        | ok r => rw [hc] at h; cases h
    | some u =>
        cases u with
        | file c =>
            simp only [copyT] at h
            exact Or.inr (Prod.mk.injEq .. ▸ (Except.error.inj h)).1.symm
        | dir bs =>
            simp only [copyT] at h
            cases hc : copyEs es bs with
            | error p =>
                obtain ⟨e1, p1⟩ := p
                rw [hc] at h
                exact (Prod.mk.injEq .. ▸ (Except.error.inj h)).1 ▸ ih _ _ _ hc
            | ok r => rw [hc] at h; cases h
  · intro dst e d' h
    simp [copyEs] at h
  · intro n t r iht ihr dst e d' h
    simp only [copyEs] at h
    by_cases hn : startsWithNfs n
    · rw [if_pos hn] at h
      exact ihr _ _ _ h
    · rw [if_neg hn] at h
      cases hc : copyT n t (lookupEntry dst n) with
      | error p =>
          obtain ⟨e1, t1⟩ := p
          rw [hc] at h
          exact (Prod.mk.injEq .. ▸ (Except.error.inj h)).1 ▸ iht _ _ _ _ hc
      | ok t1 =>
          rw [hc] at h
          exact ihr _ _ _ h

theorem renderPass_error_kind : ∀ (ns : List String) (ctx : Ctx) (es : EntryList)
    (e : DeployError) (d : EntryList),
    renderPass ns ctx es = .error (e, d) → e = .templateNotFound ∨ e = .isADirectory := by
  intro ns
  induction ns with
  | nil => intro ctx es e d h; simp [renderPass] at h
  | cons n rest ih =>
      intro ctx es e d h
      simp only [renderPass] at h
      by_cases hj : endsWithJ2 n
      · rw [if_pos hj] at h
        cases hr : render_template es n (dropLast3 n) ctx with
        | error e1 =>
            rw [hr] at h
            have he : e1 = e := (Prod.mk.injEq .. ▸ (Except.error.inj h)).1
            exact he ▸ render_template_error_kind hr
        | ok es1 =>
            rw [hr] at h
            exact ih ctx es1 e d h
      · rw [if_neg hj] at h
        exact ih ctx es e d h

theorem deploy_app_none (dest : Option FSTree) (ctx : Ctx) :
    deploy_app none dest ctx = .error (.exitOne, dest) := rfl

theorem deploy_app_exitOne {src dest : Option FSTree} {ctx : Ctx} {st : Option FSTree}
    (h : deploy_app src dest ctx = .error (.exitOne, st)) : src = none ∧ st = dest := by
  cases src with
  | none => exact ⟨rfl, ((Prod.mk.injEq .. ▸ (Except.error.inj h)).2).symm⟩
  | some u =>
      exfalso
      cases u with
      | file c => simp [deploy_app] at h
      | dir srcEs =>
          cases dest with
          | some t =>
              cases t with
              | file c2 => simp [deploy_app] at h
              | dir bs =>
                  simp only [deploy_app] at h
                  cases hc : copyEs srcEs bs with
                  | error p =>
                      obtain ⟨e1, d1⟩ := p
                      rw [hc] at h
                      have := (Prod.mk.injEq .. ▸ (Except.error.inj h)).1
                      rcases copy_error_kind.2 srcEs bs e1 d1 hc with h' | h' <;> simp [h'] at this
                  | ok d1 =>
                      simp only [hc] at h
                      cases hr : renderPass (names d1) ctx d1 with
                      | error p =>
                          obtain ⟨e1, d2⟩ := p
                          simp only [hr] at h
                          have := (Prod.mk.injEq .. ▸ (Except.error.inj h)).1
                          rcases renderPass_error_kind _ ctx d1 e1 d2 hr with h' | h' <;>
                            simp [h'] at this
                      | ok d2 => simp [hr] at h
          | none =>
              simp only [deploy_app] at h
              cases hc : copyEs srcEs .nil with
              | error p =>
                  obtain ⟨e1, d1⟩ := p
                  rw [hc] at h
                  have := (Prod.mk.injEq .. ▸ (Except.error.inj h)).1
                  rcases copy_error_kind.2 srcEs .nil e1 d1 hc with h' | h' <;> simp [h'] at this
              | ok d1 =>
                  simp only [hc] at h
                  cases hr : renderPass (names d1) ctx d1 with
                  | error p =>
                      obtain ⟨e1, d2⟩ := p
                      simp only [hr] at h
                      have := (Prod.mk.injEq .. ▸ (Except.error.inj h)).1
                      rcases renderPass_error_kind _ ctx d1 e1 d2 hr with h' | h' <;>
                        simp [h'] at this
                  | ok d2 => simp [hr] at h

theorem setPath_getPath_self : ∀ (p : List String) (root : EntryList) (t : FSTree),
    getPath p root = some t → setPath root p t = root := by
  intro p
  induction p with
  | nil =>
      intro root t h
      simp only [getPath] at h
      rw [← Option.some.inj h]
      rfl
  | cons n rest ih =>
      intro root t h
      cases rest with
      | nil =>
          simp only [getPath] at h
          simp only [setPath]
          exact setEntry_self root n t h
      | cons m rest2 =>
          simp only [getPath] at h
          cases hl : lookupEntry root n with
          | none => rw [hl] at h; cases h
          | some u =>
              cases u with
              | file c => rw [hl] at h; cases h
              | dir sub =>
                  rw [hl] at h
                  simp only [setPath, hl]
                  rw [ih sub t h]
                  exact setEntry_self root n (.dir sub) hl

theorem deployAt_exitOne {root : EntryList} {srcP dstP : List String} {ctx : Ctx}
    (h : getPath srcP root = none) :
    deployAt root srcP dstP ctx = .error (.deploy .exitOne, root) := by
  simp only [deployAt, h, deploy_app_none]
  cases hd : getPath dstP root with
  | none => rfl
  | some t => simp [setPath_getPath_self dstP root t hd]

theorem deployAt_exitOne_src {root r' : EntryList} {srcP dstP : List String} {ctx : Ctx}
    (h : deployAt root srcP dstP ctx = .error (.deploy .exitOne, r')) :
    getPath srcP root = none := by
  simp only [deployAt] at h
  cases hd : deploy_app (getPath srcP root) (getPath dstP root) ctx with
  | error p =>
      obtain ⟨e, st⟩ := p
      rw [hd] at h
      have he : e = .exitOne := by
        have := (Prod.mk.injEq .. ▸ (Except.error.inj h)).1
        cases e <;> simp_all
      exact (deploy_app_exitOne (he ▸ hd)).1
  | ok d => rw [hd] at h; cases h

theorem stackStep_ok_inputJSON {t d : String} {fs : EntryList} {opts : Opts} {c : String}
    {fs1 : EntryList} {opts1 : Opts}
    (h : stackStep t d fs opts c = .ok (fs1, opts1)) :
    opts1.inputJSON = opts.inputJSON := by
  simp only [stackStep] at h
  cases hd : deployAt fs [t, c] [d, c] opts.inputJSON with
  | error e => rw [hd] at h; cases h
  | ok f =>
      rw [hd] at h
      cases h
      rfl

theorem stackLoop_trace : ∀ (comps : List String) (t d : String) (fs : EntryList)
    (opts : Opts) (fs' : EntryList) (opts' : Opts) (trace : List Ctx),
    stackLoop t d comps fs opts = .ok (fs', opts', trace) →
    opts'.inputJSON = opts.inputJSON ∧ ∀ u ∈ trace, u = opts.inputJSON := by
  intro comps
  induction comps with
  | nil =>
      intro t d fs opts fs' opts' trace h
      simp only [stackLoop] at h
      cases h
      exact ⟨rfl, by simp⟩
  | cons c cs ih =>
      intro t d fs opts fs' opts' trace h
      simp only [stackLoop] at h
      cases hs : stackStep t d fs opts c with
      | error err => rw [hs] at h; cases h
      | ok p =>
          obtain ⟨fs1, opts1⟩ := p
          simp only [hs] at h
          cases hl : stackLoop t d cs fs1 opts1 with
          | error err => rw [hl] at h; cases h
          | ok q =>
              obtain ⟨fs2, opts2, tr⟩ := q
              simp only [hl, Except.ok.injEq, Prod.mk.injEq] at h
              obtain ⟨h1, h2, h3⟩ := h
              subst h2
              subst h3
              have hpres := stackStep_ok_inputJSON hs
              rcases ih t d fs1 opts1 fs2 opts2 tr hl with ⟨h4, h5⟩
              refine ⟨h4.trans hpres, ?_⟩
              intro u hu
              rcases List.mem_cons.mp hu with h' | h'
              · exact h'.trans hpres
              · exact (h5 u h').trans hpres

/-- C8: the data mapping is loaded once per invocation (lines 76-79) and the
`opts` dictionary's `inputJSON` field is never reassigned by the full-stack
loop, so the very same mapping is the render context of every component
deployed in the run — in full-stack mode, every recorded `deploy_app` call
uses the loaded mapping unchanged. -/
theorem claim_C8 :
    (∀ (t d : String) (comps : List String) (fs : EntryList) (opts : Opts)
        (fs' : EntryList) (opts' : Opts) (trace : List Ctx),
      stackLoop t d comps fs opts = .ok (fs', opts', trace) →
      opts'.inputJSON = opts.inputJSON ∧ ∀ u ∈ trace, u = opts.inputJSON) ∧
    (∀ (args : CmdArgs) (config : Ctx) (root fs : EntryList) (trace : List Ctx),
      mainRun args config root = .ok (fs, trace) → ∀ u ∈ trace, u = config) := by
  constructor
  · intro t d comps fs opts fs' opts' trace h
    exact stackLoop_trace comps t d fs opts fs' opts' trace h
  · intro args config root fs trace h
    simp only [mainRun, parseArgs] at h
    by_cases hfs : args.fullStack
    · rw [if_pos hfs] at h
      cases htm : args.template with
      | none => rw [htm] at h; cases hds : args.destination <;> rw [hds] at h <;> cases h
      | some t =>
          cases hds : args.destination with
          | none => rw [htm, hds] at h; cases h
          | some d =>
              simp only [htm, hds] at h
              cases hl : stackLoop t d components root (Opts.mk config "" [] []) with
              | error err => rw [hl] at h; cases h
              | ok q =>
                  obtain ⟨fs2, opts2, tr⟩ := q
                  simp only [hl, Except.ok.injEq, Prod.mk.injEq] at h
                  obtain ⟨h1, h2⟩ := h
                  subst h2
                  exact (stackLoop_trace components t d root (Opts.mk config "" [] [])
                    fs2 opts2 tr hl).2
    · rw [if_neg hfs] at h
      cases htm : args.template with
      | none =>
          rw [htm] at h
          cases args.destination <;> cases args.app <;> cases h
      | some t =>
          cases hds : args.destination with
          | none => rw [htm, hds] at h; cases args.app <;> cases h
          | some d =>
              cases hap : args.app with
              | none => rw [htm, hds, hap] at h; cases h
              | some ap =>
                  simp only [htm, hds, hap] at h
                  cases hd : deployAt root [t, ap] [d, ap] config with
                  | error err => rw [hd] at h; cases h
                  | ok f =>
                      simp only [hd, Except.ok.injEq, Prod.mk.injEq] at h
                      obtain ⟨h1, h2⟩ := h
                      subst h2
                      intro u hu
                      simpa using hu

/-- Witness for C8: a concrete successful full-stack run whose recorded
render contexts are all the loaded mapping. -/
theorem claim_C8_witness :
    ∃ fs trace, mainRun ⟨true, some "t", none, some "i", some "o"⟩ [("name", "Ada")]
        (.cons "t" (.dir (.cons "lambda" (.dir .nil) .nil)) .nil) = .ok (fs, trace) ∧
      ∀ u ∈ trace, u = [("name", "Ada")] :=
  ⟨_, _, rfl,
   claim_C8.2 ⟨true, some "t", none, some "i", some "o"⟩ [("name", "Ada")]
     (.cons "t" (.dir (.cons "lambda" (.dir .nil) .nil)) .nil) _ _ rfl⟩

/-- C6 counterexample: an invocation without `--fullStack` and without
`-a alias --app` is accepted by the argument parser (no option is declared
required) and the run then aborts with a `TypeError` while computing the
source path — not with a missing-argument parse error, contradicting the
claim. -/
theorem claim_C6_cex :
    parseArgs ⟨false, some "tmpl", none, some "in.json", some "out"⟩ =
      .ok ⟨false, some "tmpl", none, some "in.json", some "out"⟩ ∧
    mainRun ⟨false, some "tmpl", none, some "in.json", some "out"⟩ [] .nil =
      .error (.typeError, .nil) ∧
    MainError.typeError ≠ MainError.missingArgument :=
  ⟨rfl, rfl, by decide⟩

/-- C6 (amended): the script declares no required argument, so an invocation
without `--fullStack` and without `-a alias --app` is accepted by argparse and
proceeds with `app = None`; the run then fails with a `TypeError` when
`os.path.join` receives the `None` application name — a crash, not a
missing-argument error. -/
theorem claim_C6 : ∀ (args : CmdArgs) (config : Ctx) (root : EntryList),
    args.fullStack = false → args.app = none →
    parseArgs args = .ok args ∧
    mainRun args config root = .error (.typeError, root) := by
  intro args config root hfs happ
  obtain ⟨fs, tm, ap, inp, dst⟩ := args
  simp only at hfs happ
  subst hfs
  subst happ
  refine ⟨rfl, ?_⟩
  cases tm <;> cases dst <;> rfl

/-- Witness for C6 at a concrete invocation. -/
theorem claim_C6_witness :
    parseArgs ⟨false, some "t", none, none, some "o"⟩ =
      .ok ⟨false, some "t", none, none, some "o"⟩ ∧
    mainRun ⟨false, some "t", none, none, some "o"⟩ [] .nil =
      .error (.typeError, .nil) :=
  claim_C6 ⟨false, some "t", none, none, some "o"⟩ [] .nil rfl rfl

/-- C3 counterexample: a run whose computed source directory exists can
still end with process status 1 — here the source contains a directory
named `x.j2`, so the copy succeeds and the render loop aborts with an
uncaught `TemplateNotFound` (CPython exits with status 1 on an unhandled
traceback), and files have already been written to the destination.  This
contradicts both the claimed equivalence (status 1 only for a missing
source directory) and the claim that a status-1 exit happens before any
copy. -/
theorem claim_C3_cex :
    exitStatusOf (mainRun ⟨false, some "T", some "app1", some "i", some "O"⟩ []
      (.cons "T" (.dir (.cons "app1" (.dir (.cons "x.j2" (.dir .nil) .nil)) .nil)) .nil)) = 1 ∧
    (getPath ["T", "app1"]
      (.cons "T" (.dir (.cons "app1" (.dir (.cons "x.j2" (.dir .nil) .nil)) .nil)) .nil)).isSome
      = true ∧
    (getPath ["O"]
      (.cons "T" (.dir (.cons "app1" (.dir (.cons "x.j2" (.dir .nil) .nil)) .nil)) .nil)).isSome
      = false ∧
    ∃ fs, mainRun ⟨false, some "T", some "app1", some "i", some "O"⟩ []
        (.cons "T" (.dir (.cons "app1" (.dir (.cons "x.j2" (.dir .nil) .nil)) .nil)) .nil) =
        .error (.deploy .templateNotFound, fs) ∧
      (getPath ["O", "app1", "x.j2"] fs).isSome = true := by
  refine ⟨rfl, rfl, rfl, _, rfl, rfl⟩

/-- C3 (amended): the explicit `exit(1)` taken when the computed source
directory is missing is the only abort of kind `exitOne`: in single-app
mode it occurs exactly when `template/app` does not exist under the working
directory, and it happens before any copy, leaving the tree untouched (so
the process ends with status 1 and nothing written); likewise full-stack
mode aborts this way, with nothing written, when the template root lacks
the registered component's subdirectory.  Runs that abort for other reasons
(uncaught copy or render exceptions) also end with status 1, but only after
the source-existence check has passed. -/
theorem claim_C3 :
    (∀ (root : EntryList) (config : Ctx) (t d a : String) (inp : Option String),
      ((∃ r', mainRun ⟨false, some t, some a, inp, some d⟩ config root =
          .error (.deploy .exitOne, r')) ↔ getPath [t, a] root = none) ∧
      (getPath [t, a] root = none →
        mainRun ⟨false, some t, some a, inp, some d⟩ config root =
          .error (.deploy .exitOne, root) ∧
        exitStatusOf (mainRun ⟨false, some t, some a, inp, some d⟩ config root) = 1)) ∧
    (∀ (root : EntryList) (config : Ctx) (t d : String) (ap inp : Option String),
      getPath [t, "lambda"] root = none →
      mainRun ⟨true, some t, ap, inp, some d⟩ config root =
        .error (.deploy .exitOne, root)) := by
  constructor
  · intro root config t d a inp
    have hred : mainRun ⟨false, some t, some a, inp, some d⟩ config root =
        match deployAt root [t, a] [d, a] config with
        | .error err => .error err
        | .ok fs => .ok (fs, [config]) := rfl
    constructor
    · constructor
      · rintro ⟨r', hr⟩
        rw [hred] at hr
        cases hd : deployAt root [t, a] [d, a] config with
        | error err =>
            rw [hd] at hr
            cases hr
            exact deployAt_exitOne_src hd
        | ok f => rw [hd] at hr; cases hr
      · intro hnone
        exact ⟨root, by rw [hred, deployAt_exitOne hnone]⟩
    · intro hnone
      have : mainRun ⟨false, some t, some a, inp, some d⟩ config root =
          .error (.deploy .exitOne, root) := by
        rw [hred, deployAt_exitOne hnone]
      exact ⟨this, by rw [this]; rfl⟩
  · intro root config t d ap inp hnone
    have hred : mainRun ⟨true, some t, ap, inp, some d⟩ config root =
        match stackLoop t d components root (Opts.mk config "" [] []) with
        | .error err => .error err
        | .ok (fs, _, trace) => .ok (fs, trace) := rfl
    rw [hred]
    have hstep : stackStep t d root (Opts.mk config "" [] []) "lambda" =
        .error (.deploy .exitOne, root) := by
      simp only [stackStep, deployAt_exitOne hnone]
    simp only [components, stackLoop, hstep]

/-- Witness for C3 at concrete inputs: a missing application directory in
single-app mode, and a template root without the `lambda` subdirectory in
full-stack mode, both abort with `exitOne` and an untouched tree. -/
theorem claim_C3_witness :
    ((∃ r', mainRun ⟨false, some "t", some "a", none, some "d"⟩ [] .nil =
        .error (.deploy .exitOne, r')) ↔ getPath ["t", "a"] EntryList.nil = none) ∧
    mainRun ⟨false, some "t", some "a", none, some "d"⟩ [] .nil =
      .error (.deploy .exitOne, .nil) ∧
    mainRun ⟨true, some "t", none, none, some "d"⟩ [] .nil =
      .error (.deploy .exitOne, .nil) :=
  ⟨(claim_C3.1 .nil [] "t" "d" "a" none).1,
   ((claim_C3.1 .nil [] "t" "d" "a" none).2 (by decide)).1,
   claim_C3.2 .nil [] "t" "d" none none (by decide)⟩

/-! ### Copy and render-pass preservation lemmas -/

theorem copyEs_preserve : ∀ (src dst r : EntryList) (m : String),
    copyEs src dst = .ok r → ¬ m ∈ names src → lookupEntry r m = lookupEntry dst m := by
  intro src
  induction src using entryListInduction with
  | nil =>
      intro dst r m h _
      cases h
      rfl
  | cons n t rest ih =>
      intro dst r m h hm
      simp only [copyEs] at h
      have hrest : ¬ m ∈ names rest := fun he => hm (by simp [names, he])
      by_cases hn : startsWithNfs n
      · rw [if_pos hn] at h
        exact ih dst r m h hrest
      · rw [if_neg hn] at h
        cases hc : copyT n t (lookupEntry dst n) with
        | error p =>
            obtain ⟨e1, t1⟩ := p
            rw [hc] at h
            cases h
        | ok t1 =>
            simp only [hc] at h
            have hmn : m ≠ n := fun he => hm (by simp [names, he])
            have hnm : n ≠ m := fun he => hmn he.symm
            rw [ih (setEntry dst n t1) r m h hrest, lookup_setEntry]
            simp [hnm]

/-- Entries whose names carry the `.nfs` prefix are skipped by the copy, so
the destination is untouched at such a name even when the source holds it. -/
theorem copyEs_preserve_nfs : ∀ (src dst r : EntryList) (m : String),
    copyEs src dst = .ok r → startsWithNfs m = true →
    lookupEntry r m = lookupEntry dst m := by
  intro src
  induction src using entryListInduction with
  | nil =>
      intro dst r m h _
      cases h
      rfl
  | cons n t rest ih =>
      intro dst r m h hm
      simp only [copyEs] at h
      by_cases hn : startsWithNfs n
      · rw [if_pos hn] at h
        exact ih dst r m h hm
      · rw [if_neg hn] at h
        cases hc : copyT n t (lookupEntry dst n) with
        | error p =>
            obtain ⟨e1, t1⟩ := p
            rw [hc] at h
            cases h
        | ok t1 =>
            simp only [hc] at h
            have hnm : n ≠ m := fun he => hn (he ▸ hm ▸ rfl)
            rw [ih (setEntry dst n t1) r m h hm, lookup_setEntry]
            simp [hnm]

theorem copyEs_lookup_file : ∀ (src dst r : EntryList) (n c : String),
    wfEntries src = true → copyEs src dst = .ok r →
    lookupEntry src n = some (.file c) → startsWithNfs n = false →
    (∀ sub, lookupEntry dst n ≠ some (.dir sub)) →
    lookupEntry r n = some (.file c) := by
  intro src
  induction src using entryListInduction with
  | nil => intro dst r n c _ _ hl _ _; simp [lookupEntry] at hl
  | cons a t rest ih =>
      intro dst r n c hwf h hl hnfs hnd
      rcases wfEntries_cons.mp hwf with ⟨hnotin, hwt, hwr⟩
      simp only [copyEs] at h
      by_cases ha : startsWithNfs a
      · rw [if_pos ha] at h
        have han : ¬ a = n := fun he => by rw [he, hnfs] at ha; cases ha
        simp only [lookupEntry, if_neg han] at hl
        exact ih dst r n c hwr h hl hnfs hnd
      · rw [if_neg ha] at h
        by_cases han : a = n
        · subst han
          simp only [lookupEntry, if_pos rfl] at hl
          have ht : t = .file c := Option.some.inj hl
          subst ht
          have hct : copyT a (.file c) (lookupEntry dst a) = .ok (.file c) := by
            cases hold : lookupEntry dst a with
            | none => rfl
            | some u =>
                cases u with
                | file c2 => rfl
                | dir dd => exact absurd hold (hnd dd)
          simp only [hct] at h
          rw [copyEs_preserve rest _ r a h hnotin, lookup_setEntry]
          simp
        · simp only [lookupEntry, if_neg han] at hl
          cases hc : copyT a t (lookupEntry dst a) with
          | error p =>
              obtain ⟨e1, t1⟩ := p
              rw [hc] at h
              cases h
          | ok t1 =>
              simp only [hc] at h
              have hnd2 : ∀ sub, lookupEntry (setEntry dst a t1) n ≠ some (.dir sub) := by
                intro sub
                rw [lookup_setEntry, if_neg han]
                exact hnd sub
              exact ih (setEntry dst a t1) r n c hwr h hl hnfs hnd2

theorem copyEs_names : ∀ (src dst r : EntryList) (m : String),
    copyEs src dst = .ok r → m ∈ names r →
    m ∈ names dst ∨ (m ∈ names src ∧ startsWithNfs m = false) := by
  intro src
  induction src using entryListInduction with
  | nil =>
      intro dst r m h hm
      cases h
      exact Or.inl hm
  | cons a t rest ih =>
      intro dst r m h hm
      simp only [copyEs] at h
      by_cases ha : startsWithNfs a
      · rw [if_pos ha] at h
        rcases ih dst r m h hm with h' | ⟨h1, h2⟩
        · exact Or.inl h'
        · exact Or.inr ⟨by simp [names, h1], h2⟩
      · have haf : startsWithNfs a = false := by
          cases hb : startsWithNfs a
          · rfl
          · exact absurd hb ha
        rw [if_neg ha] at h
        cases hc : copyT a t (lookupEntry dst a) with
        | error p =>
            obtain ⟨e1, t1⟩ := p
            rw [hc] at h
            cases h
        | ok t1 =>
            simp only [hc] at h
            rcases ih (setEntry dst a t1) r m h hm with h' | ⟨h1, h2⟩
            · rcases (mem_names_setEntry a t1 dst m).mp h' with he | he
              · exact Or.inr ⟨by simp [names, he], he ▸ haf⟩
              · exact Or.inl he
            · exact Or.inr ⟨by simp [names, h1], h2⟩

theorem renderPass_preserve : ∀ (ns : List String) (ctx : Ctx) (es es' : EntryList) (m : String),
    renderPass ns ctx es = .ok es' →
    (∀ n ∈ ns, endsWithJ2 n = true → n ≠ m ∧ dropLast3 n ≠ m) →
    lookupEntry es' m = lookupEntry es m := by
  intro ns
  induction ns with
  | nil =>
      intro ctx es es' m h _
      cases h
      rfl
  | cons n rest ih =>
      intro ctx es es' m h hns
      simp only [renderPass] at h
      by_cases hj : endsWithJ2 n
      · rw [if_pos hj] at h
        cases hr : render_template es n (dropLast3 n) ctx with
        | error e1 => rw [hr] at h; cases h
        | ok es1 =>
            simp only [hr] at h
            have hm := hns n (by simp) hj
            have h2 : ∀ n' ∈ rest, endsWithJ2 n' = true → n' ≠ m ∧ dropLast3 n' ≠ m :=
              fun n' hn' => hns n' (by simp [hn'])
            rw [ih ctx es1 es' m h h2]
            rcases render_template_ok_cases hr with ⟨_, he⟩ | ⟨c, hl, hne, hout, he⟩
            · rw [he]
            · subst he
              rw [lookup_removeEntry, lookup_setEntry]
              simp [hm.1, hm.2]
      · rw [if_neg hj] at h
        exact ih ctx es es' m h (fun n' hn' => hns n' (by simp [hn']))

/-- The entries of an optional destination tree (`nil` when it is absent or
a file). -/
def destEntries : Option FSTree → EntryList
  | some (.dir es) => es
  | _ => .nil

theorem deploy_app_ok_parts {srcEs : EntryList} {dest : Option FSTree} {ctx : Ctx}
    {d : EntryList} (h : deploy_app (some (.dir srcEs)) dest ctx = .ok d) :
    ∃ d1, copyEs srcEs (destEntries dest) = .ok d1 ∧ renderPass (names d1) ctx d1 = .ok d := by
  have hmain : ∀ (d0 : EntryList),
      (match copyEs srcEs d0 with
        | .error (e, d') => (.error (e, some (.dir d')) :
            Except (DeployError × Option FSTree) EntryList)
        | .ok d1 =>
            match renderPass (names d1) ctx d1 with
            | .error (e, d') => .error (e, some (.dir d'))
            | .ok d2 => .ok d2) = .ok d →
      ∃ d1, copyEs srcEs d0 = .ok d1 ∧ renderPass (names d1) ctx d1 = .ok d := by
    intro d0 hm
    cases hc : copyEs srcEs d0 with
    | error p =>
        obtain ⟨e1, d'⟩ := p
        rw [hc] at hm
        cases hm
    | ok d1 =>
        refine ⟨d1, rfl, ?_⟩
        simp only [hc] at hm
        cases hr : renderPass (names d1) ctx d1 with
        | error p =>
            obtain ⟨e1, d'⟩ := p
            rw [hr] at hm
            cases hm
        | ok d2 =>
            rw [hr] at hm
            cases hm
            rfl
  cases dest with
  | none => exact hmain .nil h
  | some u =>
      cases u with
      | file c => simp [deploy_app] at h
      | dir bs => exact hmain bs h

/-- C5 counterexample: a source holding the non-template file `config.yaml`
(contents `x`) together with the template `config.yaml.j2` (contents `y`)
deploys successfully, but the destination's `config.yaml` holds the
rendered template output `y`, not the source file's bytes `x` — the render
pass does not leave every unmarked file untouched.  A second failure mode:
a source whose only entry is the non-template file `.nfsconf` deploys
successfully, yet the file never arrives at the destination at all, because
`copy_tree` silently skips every name with the `.nfs` prefix. -/
theorem claim_C5_cex :
    (deploy_app (some (.dir (.cons "config.yaml" (.file "x")
        (.cons "config.yaml.j2" (.file "y") .nil)))) none [] =
      .ok (.cons "config.yaml" (.file "y") .nil) ∧
    lookupEntry (.cons "config.yaml" (.file "y") .nil) "config.yaml" ≠ some (.file "x")) ∧
    (deploy_app (some (.dir (.cons ".nfsconf" (.file "v") .nil))) none [] = .ok .nil ∧
    lookupEntry (.nil : EntryList) ".nfsconf" = none) :=
  ⟨⟨rfl, by decide⟩, ⟨rfl, rfl⟩⟩

/-- C5 (amended): a non-template source file survives a successful run
byte-identical in the destination, provided its name does not carry the
`.nfs` prefix (such entries are silently skipped by `copy_tree`), the
pre-existing destination does not hold a directory of its name (in which
case `copy_file` redirects the copy into that directory instead of the
top level), and no marked top-level entry (of the source or of the
pre-existing destination) strips to its name; when some marked sibling
does strip to its name, the render pass overwrites the file with rendered
output. -/
theorem claim_C5 : ∀ (srcEs : EntryList) (dest : Option FSTree) (ctx : Ctx)
    (n c : String) (d : EntryList),
    wfEntries srcEs = true →
    deploy_app (some (.dir srcEs)) dest ctx = .ok d →
    lookupEntry srcEs n = some (.file c) →
    endsWithJ2 n = false →
    startsWithNfs n = false →
    (∀ sub, lookupEntry (destEntries dest) n ≠ some (.dir sub)) →
    (∀ t ∈ names srcEs, endsWithJ2 t = true → dropLast3 t ≠ n) →
    (∀ t ∈ names (destEntries dest), endsWithJ2 t = true → dropLast3 t ≠ n) →
    lookupEntry d n = some (.file c) := by
  intro srcEs dest ctx n c d hwf h hl hj2 hnfs hnd hsrc hdst
  obtain ⟨d1, hc, hr⟩ := deploy_app_ok_parts h
  have hd1 : lookupEntry d1 n = some (.file c) :=
    copyEs_lookup_file srcEs (destEntries dest) d1 n c hwf hc hl hnfs hnd
  have hpres : ∀ t ∈ names d1, endsWithJ2 t = true → t ≠ n ∧ dropLast3 t ≠ n := by
    intro t ht hjt
    refine ⟨fun he => ?_, ?_⟩
    · simp [he, hj2] at hjt
    · rcases copyEs_names srcEs (destEntries dest) d1 t hc ht with h' | h'
      · exact hdst t h' hjt
      · exact hsrc t h'.1 hjt
  rw [renderPass_preserve (names d1) ctx d1 d n hr hpres]
  exact hd1

/-- Witness for C5 at a concrete input: `config.yaml` is copied verbatim
alongside an unrelated template `a.j2`. -/
theorem claim_C5_witness :
    deploy_app (some (.dir (.cons "config.yaml" (.file "x")
        (.cons "a.j2" (.file "z") .nil)))) none [] =
      .ok (.cons "config.yaml" (.file "x") (.cons "a" (.file "z") .nil)) ∧
    lookupEntry (.cons "config.yaml" (.file "x") (.cons "a" (.file "z") .nil)) "config.yaml" =
      some (.file "x") :=
  ⟨rfl,
   claim_C5 (.cons "config.yaml" (.file "x") (.cons "a.j2" (.file "z") .nil)) none []
     "config.yaml" "x" (.cons "config.yaml" (.file "x") (.cons "a" (.file "z") .nil))
     (by decide) rfl (by decide) (by decide) (by decide)
     (fun sub hsub => Option.noConfusion hsub) (by decide) (by decide)⟩

/-! ### File paths of a tree, and the marker-stripped paths of a source -/

mutual
/-- The file paths inside a tree: a file contributes the empty path, a
directory the paths of its entries. -/
def treePaths : FSTree → List (List String)
  | .file _ => [[]]
  | .dir es => entsPaths es

/-- The file paths of a listing: `[n]` for a file named `n`, `n :: p` for a
path `p` inside a subdirectory named `n` (empty directories contribute no
file paths). -/
def entsPaths : EntryList → List (List String)
  | .nil => []
  | .cons n t rest => (treePaths t).map (fun p => n :: p) ++ entsPaths rest
end

/-- The file paths of a source listing with the `.j2` marker stripped from
top-level matching files only; entries of subdirectories keep their names
untouched. -/
def strippedPaths : EntryList → List (List String)
  | .nil => []
  | .cons n (.file _) rest =>
      [if endsWithJ2 n then dropLast3 n else n] :: strippedPaths rest
  | .cons n (.dir sub) rest => (entsPaths sub).map (fun p => n :: p) ++ strippedPaths rest

/-- Concatenation of listings. -/
def appendE : EntryList → EntryList → EntryList
  | .nil, b => b
  | .cons n t r, b => .cons n t (appendE r b)

theorem appendE_nil : ∀ a : EntryList, appendE a .nil = a := by
  intro a
  induction a using entryListInduction with
  | nil => rfl
  | cons n t r ih => simp [appendE, ih]

theorem lookup_appendE : ∀ (a b : EntryList) (m : String),
    lookupEntry (appendE a b) m =
      match lookupEntry a m with
      | some t => some t
      | none => lookupEntry b m := by
  intro a
  induction a using entryListInduction with
  | nil => intro b m; rfl
  | cons n t r ih =>
      intro b m
      by_cases h : n = m
      · simp [appendE, lookupEntry, h]
      · simp [appendE, lookupEntry, h, ih]

theorem setEntry_append {dst : EntryList} {n : String} {t : FSTree}
    (h : lookupEntry dst n = none) : setEntry dst n t = appendE dst (.cons n t .nil) := by
  induction dst using entryListInduction with
  | nil => rfl
  | cons a u r ih =>
      by_cases han : a = n
      · subst han
        simp [lookupEntry] at h
      · simp only [lookupEntry, if_neg han] at h
        simp [setEntry, han, appendE, ih h]

theorem appendE_cons_left (n : String) (t : FSTree) (b : EntryList) :
    appendE (.cons n t .nil) b = .cons n t b := rfl

theorem appendE_assoc : ∀ (a b c : EntryList),
    appendE (appendE a b) c = appendE a (appendE b c) := by
  intro a
  induction a using entryListInduction with
  | nil => intro b c; rfl
  | cons n t r ih => intro b c; simp [appendE, ih]

theorem startsWithNfs_false_of_not {n : String} (h : ¬ startsWithNfs n = true) :
    startsWithNfs n = false := by
  cases hb : startsWithNfs n
  · rfl
  · exact absurd hb h

theorem nfsFilter_eq_of_free :
    (∀ t : FSTree, nfsFreeTree t = true → nfsFilterT t = t) ∧
    (∀ es : EntryList, nfsFreeEntries es = true → nfsFilterE es = es) := by
  apply fs_mutual_induction
  · intro c _
    rfl
  · intro es ih h
    simp only [nfsFilterT]
    rw [ih (by simpa [nfsFreeTree] using h)]
  · intro _
    rfl
  · intro n t r iht ihr h
    simp only [nfsFreeEntries, Bool.and_eq_true, Bool.not_eq_true'] at h
    obtain ⟨⟨h1, h2⟩, h3⟩ := h
    simp only [nfsFilterE, h1, if_false, Bool.false_eq_true]
    rw [iht h2, ihr h3]

theorem mem_names_nfsFilter : ∀ (es : EntryList) (m : String),
    m ∈ names (nfsFilterE es) ↔ m ∈ names es ∧ startsWithNfs m = false := by
  intro es
  induction es using entryListInduction with
  | nil => intro m; simp [nfsFilterE, names]
  | cons n t r ih =>
      intro m
      by_cases hn : startsWithNfs n
      · simp only [nfsFilterE, if_pos hn]
        rw [ih m]
        constructor
        · rintro ⟨hm, hf⟩
          exact ⟨by simp [names, hm], hf⟩
        · rintro ⟨hm, hf⟩
          rcases List.mem_cons.mp (by simpa [names] using hm) with he | he
          · rw [he] at hf
            rw [hf] at hn
            cases hn
          · exact ⟨he, hf⟩
      · have hnf : startsWithNfs n = false := startsWithNfs_false_of_not hn
        simp only [nfsFilterE, if_neg hn]
        constructor
        · intro hm
          rcases List.mem_cons.mp (by simpa [names] using hm) with he | he
          · subst he
            exact ⟨by simp [names], hnf⟩
          · rcases (ih m).mp he with ⟨h1, h2⟩
            exact ⟨by simp [names, h1], h2⟩
        · rintro ⟨hm, hf⟩
          rcases List.mem_cons.mp (by simpa [names] using hm) with he | he
          · subst he
            simp [names]
          · simp only [names, List.mem_cons]
            exact Or.inr ((ih m).mpr ⟨he, hf⟩)

theorem lookup_nfsFilter : ∀ (es : EntryList) (m : String),
    lookupEntry (nfsFilterE es) m =
      if startsWithNfs m then none else (lookupEntry es m).map nfsFilterT := by
  intro es
  induction es using entryListInduction with
  | nil => intro m; simp [nfsFilterE, lookupEntry]
  | cons n t r ih =>
      intro m
      by_cases hn : startsWithNfs n
      · simp only [nfsFilterE, if_pos hn]
        rw [ih m]
        by_cases hm : startsWithNfs m
        · simp [hm]
        · have hnm : ¬ n = m := fun he => hm (he ▸ hn)
          simp [hm, lookupEntry, hnm]
      · simp only [nfsFilterE, if_neg hn, lookupEntry]
        by_cases hnm : n = m
        · subst hnm
          have hmf : startsWithNfs n = false := startsWithNfs_false_of_not hn
          simp [hmf, lookupEntry]
        · rw [if_neg hnm, ih m]
          simp [lookupEntry, hnm]

theorem wf_nfsFilter :
    (∀ t : FSTree, wfTree t = true → wfTree (nfsFilterT t) = true) ∧
    (∀ es : EntryList, wfEntries es = true → wfEntries (nfsFilterE es) = true) := by
  apply fs_mutual_induction
  · intro c _
    rfl
  · intro es ih h
    simpa [nfsFilterT, wfTree] using ih (by simpa [wfTree] using h)
  · intro _
    rfl
  · intro n t r iht ihr hwf
    rcases wfEntries_cons.mp hwf with ⟨hnotin, hwt, hwr⟩
    by_cases hn : startsWithNfs n
    · simpa [nfsFilterE, hn] using ihr hwr
    · simp only [nfsFilterE, if_neg hn]
      refine wfEntries_cons.mpr ⟨?_, iht hwt, ihr hwr⟩
      intro hmem
      exact hnotin ((mem_names_nfsFilter r n).mp hmem).1

theorem copy_fresh :
    (∀ t : FSTree, wfTree t = true → ∀ n : String, copyT n t none = .ok (nfsFilterT t)) ∧
    (∀ es : EntryList, wfEntries es = true → ∀ dst : EntryList,
      (∀ m ∈ names es, lookupEntry dst m = none) →
      copyEs es dst = .ok (appendE dst (nfsFilterE es))) := by
  apply fs_mutual_induction
  · intro c _ n
    rfl
  · intro es ih hwf n
    have h := ih (by simpa [wfTree] using hwf) .nil (by intro m _; rfl)
    simp only [copyT, h]
    rfl
  · intro _ dst hdst
    simp [copyEs, nfsFilterE, appendE_nil]
  · intro n t r iht ihr hwf dst hdst
    rcases wfEntries_cons.mp hwf with ⟨hnotin, hwt, hwr⟩
    by_cases hnfs : startsWithNfs n
    · simp only [copyEs, if_pos hnfs]
      rw [ihr hwr dst (fun m hm => hdst m (by simp [names, hm]))]
      simp [nfsFilterE, hnfs]
    · simp only [copyEs, if_neg hnfs]
      have hn : lookupEntry dst n = none := hdst n (by simp [names])
      simp only [hn, iht hwt n]
      have hset : setEntry dst n (nfsFilterT t) = appendE dst (.cons n (nfsFilterT t) .nil) :=
        setEntry_append hn
      rw [hset]
      have hr := ihr hwr (appendE dst (.cons n (nfsFilterT t) .nil)) ?_
      · rw [hr, appendE_assoc]
        simp [nfsFilterE, hnfs, appendE]
      · intro m hm
        rw [lookup_appendE]
        have hmn : n ≠ m := fun he => hnotin (he ▸ hm)
        rw [hdst m (by simp [names, hm])]
        simp [lookupEntry, hmn]

theorem copyEs_nil_of_wf {es : EntryList} (hwf : wfEntries es = true) :
    copyEs es .nil = .ok (nfsFilterE es) := by
  have := copy_fresh.2 es hwf .nil (by intro m _; rfl)
  simpa [appendE] using this

/-! ### Characterization of the render pass -/

/-- No name carries a doubled marker: stripping the marker from a marked
name never yields another marked name.  (Without this, the render output of
one template can itself be picked up by a later loop iteration, since the
`os.listdir` snapshot may contain the stripped name.) -/
def NoDouble (ns : List String) : Prop :=
  ∀ n ∈ ns, endsWithJ2 n = true → endsWithJ2 (dropLast3 n) = false

/-- The contents of the file entry named `n` (defaulting to the empty
string). -/
def fileContentD (orig : EntryList) (n : String) : String :=
  match lookupEntry orig n with
  | some (.file c) => c
  | _ => ""

/-- What a lookup in the destination returns after the render loop has
processed the names of `P` (in order) starting from the post-copy state
`orig`: the latest-written render output for a stripped name, `none` for a
processed marked name, and the untouched `orig` entry otherwise. -/
def expectedLookup (orig : EntryList) (ctx : Ctx) (P : List String) (m : String) :
    Option FSTree :=
  match P.reverse.find? (fun u => endsWithJ2 u && (dropLast3 u == m)) with
  | some u => some (.file (renderJinja (fileContentD orig u) ctx))
  | none =>
      if m ∈ P ∧ endsWithJ2 m = true then none
      else lookupEntry orig m

/-- The loop invariant: every lookup in the current state is as
`expectedLookup` predicts. -/
def RenderInv (orig : EntryList) (ctx : Ctx) (P : List String) (s : EntryList) : Prop :=
  ∀ m, lookupEntry s m = expectedLookup orig ctx P m

/-- Facts the loop has established about every processed marked name: the
post-copy state held a file there, the stripped name is nonempty, and the
stripped slot of the post-copy state was not a directory. -/
def MarkedFacts (orig : EntryList) (P : List String) : Prop :=
  ∀ u ∈ P, endsWithJ2 u = true →
    (∃ c, lookupEntry orig u = some (.file c)) ∧
    ¬ (dropLast3 u = "" ∨ dropLast3 u = "." ∨ dropLast3 u = "..") ∧
    ∀ sub, lookupEntry orig (dropLast3 u) ≠ some (.dir sub)

theorem expectedLookup_nil (orig : EntryList) (ctx : Ctx) (m : String) :
    expectedLookup orig ctx [] m = lookupEntry orig m := by
  simp [expectedLookup]

theorem find_strip_none {P : List String} {orig : EntryList} {n : String}
    (hscope : ∀ u ∈ P, u ∈ names orig) (hnd : NoDouble (names orig))
    (hj : endsWithJ2 n = true) :
    P.reverse.find? (fun u => endsWithJ2 u && (dropLast3 u == n)) = none := by
  rw [List.find?_eq_none]
  intro u hu hpred
  have hu' : u ∈ P := by simpa using hu
  obtain ⟨h1, h2⟩ := (Bool.and_eq_true _ _) ▸ hpred
  have h2' : dropLast3 u = n := eq_of_beq h2
  have hd := hnd u (hscope u hu') h1
  rw [h2'] at hd
  rw [hd] at hj
  cases hj

theorem expectedLookup_extend_unmarked (orig : EntryList) (ctx : Ctx) (P : List String)
    {n : String} (hj : endsWithJ2 n = false) (m : String) :
    expectedLookup orig ctx (P ++ [n]) m = expectedLookup orig ctx P m := by
  unfold expectedLookup
  have hrev : (P ++ [n]).reverse = n :: P.reverse := by simp
  have hstep : List.find? (fun u => endsWithJ2 u && (dropLast3 u == m)) (n :: P.reverse) =
      List.find? (fun u => endsWithJ2 u && (dropLast3 u == m)) P.reverse :=
    List.find?_cons_of_neg _ (by simp [hj])
  rw [hrev, hstep]
  by_cases hm : m = n
  · subst hm
    simp [hj]
  · simp [hm]

theorem expectedLookup_extend_marked_strip (orig : EntryList) (ctx : Ctx) (P : List String)
    {n : String} (hj : endsWithJ2 n = true) :
    expectedLookup orig ctx (P ++ [n]) (dropLast3 n) =
      some (.file (renderJinja (fileContentD orig n) ctx)) := by
  unfold expectedLookup
  have hrev : (P ++ [n]).reverse = n :: P.reverse := by simp
  have hstep : List.find? (fun u => endsWithJ2 u && (dropLast3 u == dropLast3 n))
      (n :: P.reverse) = some n :=
    List.find?_cons_of_pos _ (by simp [hj])
  rw [hrev, hstep]

theorem expectedLookup_extend_marked_self (orig : EntryList) (ctx : Ctx) (P : List String)
    {n : String} (hj : endsWithJ2 n = true) (hne : dropLast3 n ≠ n)
    (hfind : P.reverse.find? (fun u => endsWithJ2 u && (dropLast3 u == n)) = none) :
    expectedLookup orig ctx (P ++ [n]) n = none := by
  unfold expectedLookup
  have hrev : (P ++ [n]).reverse = n :: P.reverse := by simp
  have hstep : List.find? (fun u => endsWithJ2 u && (dropLast3 u == n)) (n :: P.reverse) =
      List.find? (fun u => endsWithJ2 u && (dropLast3 u == n)) P.reverse :=
    List.find?_cons_of_neg _ (by simp [hne])
  rw [hrev, hstep, hfind]
  simp [hj]

theorem expectedLookup_extend_marked_other (orig : EntryList) (ctx : Ctx) (P : List String)
    {n m : String} (hm1 : m ≠ n) (hm2 : dropLast3 n ≠ m) :
    expectedLookup orig ctx (P ++ [n]) m = expectedLookup orig ctx P m := by
  unfold expectedLookup
  have hrev : (P ++ [n]).reverse = n :: P.reverse := by simp
  have hstep : List.find? (fun u => endsWithJ2 u && (dropLast3 u == m)) (n :: P.reverse) =
      List.find? (fun u => endsWithJ2 u && (dropLast3 u == m)) P.reverse :=
    List.find?_cons_of_neg _ (by simp [hm2])
  rw [hrev, hstep]
  simp [hm1]

theorem lookup_unprocessed {orig s : EntryList} {ctx : Ctx} {P : List String} {n : String}
    (hinv : RenderInv orig ctx P s) (hscope : ∀ u ∈ P, u ∈ names orig)
    (hnd : NoDouble (names orig)) (hj : endsWithJ2 n = true) (hnP : ¬ n ∈ P) :
    lookupEntry s n = lookupEntry orig n := by
  rw [hinv n]
  unfold expectedLookup
  rw [find_strip_none hscope hnd hj]
  simp [hnP]

theorem strip_not_dir {orig s : EntryList} {ctx : Ctx} {P : List String} {n : String}
    (hinv : RenderInv orig ctx P s) (hfacts : MarkedFacts orig P)
    (hnd : NoDouble (names orig)) (hj : endsWithJ2 n = true) (hn : n ∈ names orig)
    (hout : ∀ sub, lookupEntry s (dropLast3 n) ≠ some (.dir sub)) :
    ∀ sub, lookupEntry orig (dropLast3 n) ≠ some (.dir sub) := by
  intro sub hbad
  cases hf : P.reverse.find? (fun u => endsWithJ2 u && (dropLast3 u == dropLast3 n)) with
  | some u =>
      have hpred : (endsWithJ2 u && (dropLast3 u == dropLast3 n)) = true := by
        simpa using List.find?_some hf
      obtain ⟨h1, h2⟩ := (Bool.and_eq_true _ _) ▸ hpred
      have hmem : u ∈ P := by simpa using List.mem_of_find?_eq_some hf
      have h2' : dropLast3 u = dropLast3 n := eq_of_beq h2
      have hnd' := (hfacts u hmem h1).2.2 sub
      rw [h2'] at hnd'
      exact hnd' hbad
  | none =>
      have hmark : endsWithJ2 (dropLast3 n) = false := hnd n hn hj
      have heq : lookupEntry s (dropLast3 n) = lookupEntry orig (dropLast3 n) := by
        rw [hinv (dropLast3 n)]
        unfold expectedLookup
        rw [hf]
        simp [hmark]
      exact hout sub (by rw [heq]; exact hbad)

theorem render_step_spec {orig s : EntryList} {ctx : Ctx} {P : List String} {n : String}
    (hscope : ∀ u ∈ P, u ∈ names orig)
    (hnP : ¬ n ∈ P)
    (hn : n ∈ names orig)
    (hnd : NoDouble (names orig))
    (hinv : RenderInv orig ctx P s)
    (hfacts : MarkedFacts orig P)
    (hj : endsWithJ2 n = true)
    (hfile : ∃ c, lookupEntry orig n = some (.file c))
    (hne : ¬ (dropLast3 n = "" ∨ dropLast3 n = "." ∨ dropLast3 n = ".."))
    (hnodir : ∀ sub, lookupEntry orig (dropLast3 n) ≠ some (.dir sub)) :
    render_template s n (dropLast3 n) ctx =
      .ok (removeEntry (setEntry s (dropLast3 n)
        (.file (renderJinja (fileContentD orig n) ctx))) n) ∧
    RenderInv orig ctx (P ++ [n])
      (removeEntry (setEntry s (dropLast3 n)
        (.file (renderJinja (fileContentD orig n) ctx))) n) ∧
    MarkedFacts orig (P ++ [n]) := by
  obtain ⟨c, hc⟩ := hfile
  have hfind := find_strip_none hscope hnd hj
  have hcd : fileContentD orig n = c := by simp [fileContentD, hc]
  have hsn : lookupEntry s n = some (.file c) := by
    rw [lookup_unprocessed hinv hscope hnd hj hnP]
    exact hc
  have hsf : ∀ sub, lookupEntry s (dropLast3 n) ≠ some (.dir sub) := by
    intro sub hbad
    rw [hinv (dropLast3 n)] at hbad
    unfold expectedLookup at hbad
    cases hf : P.reverse.find? (fun u => endsWithJ2 u && (dropLast3 u == dropLast3 n)) with
    | some u => rw [hf] at hbad; cases hbad
    | none =>
        rw [hf] at hbad
        by_cases hcond : dropLast3 n ∈ P ∧ endsWithJ2 (dropLast3 n) = true
        · rw [if_pos hcond] at hbad; cases hbad
        · rw [if_neg hcond] at hbad
          exact hnodir sub hbad
  have hstrip_ne : dropLast3 n ≠ n := by
    intro he
    have hd := hnd n hn hj
    rw [he] at hd
    rw [hd] at hj
    cases hj
  have hrt := @render_template_ok_file s n (dropLast3 n) ctx c hsn hne hsf
  rw [hcd]
  refine ⟨hrt, ?_, ?_⟩
  · intro m
    rw [lookup_removeEntry, lookup_setEntry]
    by_cases hm1 : n = m
    · subst hm1
      rw [if_pos rfl, expectedLookup_extend_marked_self orig ctx P hj hstrip_ne hfind]
    · rw [if_neg hm1]
      by_cases hm2 : dropLast3 n = m
      · subst hm2
        rw [if_pos rfl, expectedLookup_extend_marked_strip orig ctx P hj, hcd]
      · rw [if_neg hm2, hinv m,
          expectedLookup_extend_marked_other orig ctx P (fun he => hm1 he.symm) hm2]
  · intro u hu hju
    rcases List.mem_append.mp hu with h' | h'
    · exact hfacts u h' hju
    · have hun : u = n := by simpa using h'
      subst hun
      exact ⟨⟨c, hc⟩, hne, hnodir⟩

theorem renderPass_spec : ∀ (R P : List String) (orig s : EntryList) (ctx : Ctx),
    names orig = P ++ R →
    (names orig).Nodup →
    NoDouble (names orig) →
    RenderInv orig ctx P s →
    MarkedFacts orig P →
    (∀ u ∈ R, endsWithJ2 u = true →
      (∃ c, lookupEntry orig u = some (.file c)) ∧
      ¬ (dropLast3 u = "" ∨ dropLast3 u = "." ∨ dropLast3 u = "..") ∧
      (∀ sub, lookupEntry orig (dropLast3 u) ≠ some (.dir sub))) →
    ∃ s', renderPass R ctx s = .ok s' ∧ RenderInv orig ctx (names orig) s' ∧
      MarkedFacts orig (names orig) := by
  intro R
  induction R with
  | nil =>
      intro P orig s ctx hsplit hnodup hnd hinv hfacts _
      have hP : names orig = P := by simpa using hsplit
      refine ⟨s, rfl, ?_, ?_⟩
      · rw [hP]; exact hinv
      · rw [hP]; exact hfacts
  | cons n rest ih =>
      intro P orig s ctx hsplit hnodup hnd hinv hfacts hR
      have hsplit' : names orig = (P ++ [n]) ++ rest := by rw [hsplit]; simp
      by_cases hj : endsWithJ2 n = true
      · have hscope : ∀ u ∈ P, u ∈ names orig := by
          intro u hu; rw [hsplit]; exact List.mem_append_left _ hu
        have hnP : ¬ n ∈ P := by
          rw [hsplit] at hnodup
          have hdisj := (List.nodup_append.mp hnodup).2.2
          intro hcontra
          exact hdisj hcontra (by simp)
        have hn : n ∈ names orig := by rw [hsplit]; exact List.mem_append_right _ (by simp)
        obtain ⟨hfile, hne, hnodir⟩ := hR n (by simp) hj
        obtain ⟨hrt, hinv', hfacts'⟩ :=
          render_step_spec hscope hnP hn hnd hinv hfacts hj hfile hne hnodir
        obtain ⟨s', hrp, hfin1, hfin2⟩ := ih (P ++ [n]) orig _ ctx hsplit' hnodup hnd hinv'
          hfacts' (fun u hu hju => hR u (by simp [hu]) hju)
        refine ⟨s', ?_, hfin1, hfin2⟩
        simp only [renderPass, if_pos hj, hrt]
        exact hrp
      · have hjf : endsWithJ2 n = false := by
          cases h : endsWithJ2 n
          · rfl
          · exact absurd h hj
        have hinv' : RenderInv orig ctx (P ++ [n]) s := by
          intro m
          rw [expectedLookup_extend_unmarked orig ctx P hjf m]
          exact hinv m
        have hfacts' : MarkedFacts orig (P ++ [n]) := by
          intro u hu hju
          rcases List.mem_append.mp hu with h' | h'
          · exact hfacts u h' hju
          · have hun : u = n := by simpa using h'
            subst hun
            exact absurd hju hj
        obtain ⟨s', hrp, hfin1, hfin2⟩ := ih (P ++ [n]) orig s ctx hsplit' hnodup hnd hinv'
          hfacts' (fun u hu hju => hR u (by simp [hu]) hju)
        refine ⟨s', ?_, hfin1, hfin2⟩
        simp only [renderPass, if_neg hj]
        exact hrp

theorem renderPass_ok_inv : ∀ (R P : List String) (orig s s' : EntryList) (ctx : Ctx),
    names orig = P ++ R →
    (names orig).Nodup →
    NoDouble (names orig) →
    RenderInv orig ctx P s →
    MarkedFacts orig P →
    renderPass R ctx s = .ok s' →
    RenderInv orig ctx (names orig) s' ∧ MarkedFacts orig (names orig) := by
  intro R
  induction R with
  | nil =>
      intro P orig s s' ctx hsplit hnodup hnd hinv hfacts h
      have hP : names orig = P := by simpa using hsplit
      cases h
      exact ⟨by rw [hP]; exact hinv, by rw [hP]; exact hfacts⟩
  | cons n rest ih =>
      intro P orig s s' ctx hsplit hnodup hnd hinv hfacts h
      have hsplit' : names orig = (P ++ [n]) ++ rest := by rw [hsplit]; simp
      by_cases hj : endsWithJ2 n = true
      · have hscope : ∀ u ∈ P, u ∈ names orig := by
          intro u hu; rw [hsplit]; exact List.mem_append_left _ hu
        have hnP : ¬ n ∈ P := by
          rw [hsplit] at hnodup
          have hdisj := (List.nodup_append.mp hnodup).2.2
          intro hcontra
          exact hdisj hcontra (by simp)
        have hn : n ∈ names orig := by rw [hsplit]; exact List.mem_append_right _ (by simp)
        simp only [renderPass, if_pos hj] at h
        cases hrt : render_template s n (dropLast3 n) ctx with
        | error e => rw [hrt] at h; cases h
        | ok s₁ =>
            simp only [hrt] at h
            -- derive the facts about `n` from the successful render
            have hsn : lookupEntry s n = lookupEntry orig n :=
              lookup_unprocessed hinv hscope hnd hj hnP
            have hfile : ∃ c, lookupEntry orig n = some (.file c) := by
              cases horig : lookupEntry orig n with
              | none =>
                  have := (mem_names_iff_lookup orig n).mp hn
                  rw [horig] at this
                  cases this
              | some u =>
                  cases u with
                  | file c => exact ⟨c, rfl⟩
                  | dir sub =>
                      rw [render_template_dir (horig ▸ hsn)] at hrt
                      cases hrt
            rcases render_template_ok_cases hrt with ⟨hnone, _⟩ | ⟨c, hlf, hne, hout, hs1⟩
            · obtain ⟨c, hc⟩ := hfile
              rw [hsn, hc] at hnone
              cases hnone
            · have hnodir := strip_not_dir hinv hfacts hnd hj hn hout
              obtain ⟨hrt2, hinv', hfacts'⟩ :=
                render_step_spec hscope hnP hn hnd hinv hfacts hj hfile hne hnodir
              have hs1' : s₁ = removeEntry (setEntry s (dropLast3 n)
                  (.file (renderJinja (fileContentD orig n) ctx))) n :=
                Except.ok.inj (hrt.symm.trans hrt2)
              rw [hs1'] at h
              exact ih (P ++ [n]) orig _ s' ctx hsplit' hnodup hnd hinv' hfacts' h
      · have hjf : endsWithJ2 n = false := by
          cases hb : endsWithJ2 n
          · rfl
          · exact absurd hb hj
        have hinv' : RenderInv orig ctx (P ++ [n]) s := by
          intro m
          rw [expectedLookup_extend_unmarked orig ctx P hjf m]
          exact hinv m
        have hfacts' : MarkedFacts orig (P ++ [n]) := by
          intro u hu hju
          rcases List.mem_append.mp hu with h' | h'
          · exact hfacts u h' hju
          · have hun : u = n := by simpa using h'
            subst hun
            exact absurd hju hj
        simp only [renderPass, if_neg hj] at h
        exact ih (P ++ [n]) orig s s' ctx hsplit' hnodup hnd hinv' hfacts' h

theorem renderPass_wf : ∀ (ns : List String) (ctx : Ctx) (es es' : EntryList),
    wfEntries es = true → renderPass ns ctx es = .ok es' → wfEntries es' = true := by
  intro ns
  induction ns with
  | nil =>
      intro ctx es es' hwf h
      cases h
      exact hwf
  | cons n rest ih =>
      intro ctx es es' hwf h
      simp only [renderPass] at h
      by_cases hj : endsWithJ2 n
      · rw [if_pos hj] at h
        cases hrt : render_template es n (dropLast3 n) ctx with
        | error e => rw [hrt] at h; cases h
        | ok es1 =>
            simp only [hrt] at h
            have hwf1 : wfEntries es1 = true := by
              rcases render_template_ok_cases hrt with ⟨_, he⟩ | ⟨c, _, _, _, he⟩
              · rw [he]; exact hwf
              · rw [he]
                exact wf_removeEntry n _ (wf_setEntry (dropLast3 n) _ es hwf rfl)
            exact ih ctx es1 es' hwf1 h
      · rw [if_neg hj] at h
        exact ih ctx es es' hwf h

theorem mem_entsPaths : ∀ (es : EntryList), wfEntries es = true → ∀ (p : List String),
    (p ∈ entsPaths es ↔
      (∃ n c, p = [n] ∧ lookupEntry es n = some (.file c)) ∨
      (∃ n sub tl, p = n :: tl ∧ lookupEntry es n = some (.dir sub) ∧ tl ∈ entsPaths sub)) := by
  intro es
  induction es using entryListInduction with
  | nil =>
      intro _ p
      simp [entsPaths, lookupEntry]
  | cons a t rest ih =>
      intro hwf p
      rcases wfEntries_cons.mp hwf with ⟨hnotin, hwt, hwr⟩
      have ihr := ih hwr
      constructor
      · intro hp
        rcases (by simpa [entsPaths] using hp :
            (∃ q ∈ treePaths t, a :: q = p) ∨ p ∈ entsPaths rest) with ⟨q, hq, hpq⟩ | hl
        · cases t with
          | file c =>
              simp only [treePaths] at hq
              have hq0 : q = [] := by simpa using hq
              subst hq0
              exact Or.inl ⟨a, c, hpq.symm, by simp [lookupEntry]⟩
          | dir sub =>
              simp only [treePaths] at hq
              exact Or.inr ⟨a, sub, q, hpq.symm, by simp [lookupEntry], hq⟩
        · rcases (ihr p).mp hl with ⟨n, c, hpn, hln⟩ | ⟨n, sub, tl, hpn, hln, htl⟩
          · have hna : a ≠ n := fun he => hnotin (he ▸ mem_names_of_lookup hln)
            exact Or.inl ⟨n, c, hpn, by simp [lookupEntry, hna, hln]⟩
          · have hna : a ≠ n := fun he => hnotin (he ▸ mem_names_of_lookup hln)
            exact Or.inr ⟨n, sub, tl, hpn, by simp [lookupEntry, hna, hln], htl⟩
      · intro hp
        rcases hp with ⟨n, c, hpn, hln⟩ | ⟨n, sub, tl, hpn, hln, htl⟩
        · by_cases hna : a = n
          · subst hna
            simp only [lookupEntry, if_pos rfl] at hln
            have hts : t = .file c := Option.some.inj hln
            subst hts
            subst hpn
            simp [entsPaths, treePaths]
          · simp only [lookupEntry, if_neg hna] at hln
            have : p ∈ entsPaths rest := (ihr p).mpr (Or.inl ⟨n, c, hpn, hln⟩)
            simp [entsPaths, this]
        · by_cases hna : a = n
          · subst hna
            simp only [lookupEntry, if_pos rfl] at hln
            have hts : t = .dir sub := Option.some.inj hln
            subst hts
            subst hpn
            simp only [entsPaths, treePaths, List.mem_append]
            exact Or.inl (List.mem_map.mpr ⟨tl, htl, rfl⟩)
          · simp only [lookupEntry, if_neg hna] at hln
            have : p ∈ entsPaths rest := (ihr p).mpr (Or.inr ⟨n, sub, tl, hpn, hln, htl⟩)
            simp [entsPaths, this]

theorem mem_strippedPaths : ∀ (es : EntryList), wfEntries es = true → ∀ (p : List String),
    (p ∈ strippedPaths es ↔
      (∃ n c, lookupEntry es n = some (.file c) ∧
        p = [if endsWithJ2 n then dropLast3 n else n]) ∨
      (∃ n sub tl, p = n :: tl ∧ lookupEntry es n = some (.dir sub) ∧ tl ∈ entsPaths sub)) := by
  intro es
  induction es using entryListInduction with
  | nil =>
      intro _ p
      simp [strippedPaths, lookupEntry]
  | cons a t rest ih =>
      intro hwf p
      rcases wfEntries_cons.mp hwf with ⟨hnotin, hwt, hwr⟩
      have ihr := ih hwr
      cases t with
      | file c =>
          constructor
          · intro hp
            rcases List.mem_cons.mp (by simpa [strippedPaths] using hp) with hl | hl
            · exact Or.inl ⟨a, c, by simp [lookupEntry], hl⟩
            · rcases (ihr p).mp hl with ⟨n, c2, hln, hpn⟩ | ⟨n, sub, tl, hpn, hln, htl⟩
              · have hna : a ≠ n := fun he => hnotin (he ▸ mem_names_of_lookup hln)
                exact Or.inl ⟨n, c2, by simp [lookupEntry, hna, hln], hpn⟩
              · have hna : a ≠ n := fun he => hnotin (he ▸ mem_names_of_lookup hln)
                exact Or.inr ⟨n, sub, tl, hpn, by simp [lookupEntry, hna, hln], htl⟩
          · intro hp
            rcases hp with ⟨n, c2, hln, hpn⟩ | ⟨n, sub, tl, hpn, hln, htl⟩
            · by_cases hna : a = n
              · subst hna
                simp only [lookupEntry, if_pos rfl] at hln
                subst hpn
                simp [strippedPaths]
              · simp only [lookupEntry, if_neg hna] at hln
                have : p ∈ strippedPaths rest := (ihr p).mpr (Or.inl ⟨n, c2, hln, hpn⟩)
                simp [strippedPaths, this]
            · by_cases hna : a = n
              · subst hna
                simp only [lookupEntry, if_pos rfl] at hln
                cases hln
              · simp only [lookupEntry, if_neg hna] at hln
                have : p ∈ strippedPaths rest :=
                  (ihr p).mpr (Or.inr ⟨n, sub, tl, hpn, hln, htl⟩)
                simp [strippedPaths, this]
      | dir sub0 =>
          constructor
          · intro hp
            rcases (by simpa [strippedPaths] using hp :
                (∃ q ∈ entsPaths sub0, a :: q = p) ∨ p ∈ strippedPaths rest) with
              ⟨q, hq, hpq⟩ | hl
            · exact Or.inr ⟨a, sub0, q, hpq.symm, by simp [lookupEntry], hq⟩
            · rcases (ihr p).mp hl with ⟨n, c2, hln, hpn⟩ | ⟨n, sub, tl, hpn, hln, htl⟩
              · have hna : a ≠ n := fun he => hnotin (he ▸ mem_names_of_lookup hln)
                exact Or.inl ⟨n, c2, by simp [lookupEntry, hna, hln], hpn⟩
              · have hna : a ≠ n := fun he => hnotin (he ▸ mem_names_of_lookup hln)
                exact Or.inr ⟨n, sub, tl, hpn, by simp [lookupEntry, hna, hln], htl⟩
          · intro hp
            rcases hp with ⟨n, c2, hln, hpn⟩ | ⟨n, sub, tl, hpn, hln, htl⟩
            · by_cases hna : a = n
              · subst hna
                simp only [lookupEntry, if_pos rfl] at hln
                cases hln
              · simp only [lookupEntry, if_neg hna] at hln
                have : p ∈ strippedPaths rest := (ihr p).mpr (Or.inl ⟨n, c2, hln, hpn⟩)
                simp [strippedPaths, this]
            · by_cases hna : a = n
              · subst hna
                simp only [lookupEntry, if_pos rfl] at hln
                have hts : sub0 = sub := by
                  have := Option.some.inj hln
                  cases this
                  rfl
                subst hts
                subst hpn
                simp only [strippedPaths, List.mem_append]
                exact Or.inl (List.mem_map.mpr ⟨tl, htl, rfl⟩)
              · simp only [lookupEntry, if_neg hna] at hln
                have : p ∈ strippedPaths rest :=
                  (ihr p).mpr (Or.inr ⟨n, sub, tl, hpn, hln, htl⟩)
                simp [strippedPaths, this]

theorem find?_isSome_of_mem {l : List String} {p : String → Bool} {x : String}
    (hx : x ∈ l) (hp : p x = true) : ∃ u, l.find? p = some u := by
  cases hf : l.find? p with
  | none => exact absurd hp (List.find?_eq_none.mp hf x hx)
  | some u => exact ⟨u, rfl⟩

theorem expectedLookup_cases (orig : EntryList) (ctx : Ctx) (P : List String) (m : String) :
    (∃ u, P.reverse.find? (fun u => endsWithJ2 u && (dropLast3 u == m)) = some u ∧
      expectedLookup orig ctx P m = some (.file (renderJinja (fileContentD orig u) ctx))) ∨
    (P.reverse.find? (fun u => endsWithJ2 u && (dropLast3 u == m)) = none ∧
      expectedLookup orig ctx P m =
        (if m ∈ P ∧ endsWithJ2 m = true then none else lookupEntry orig m)) := by
  cases hf : P.reverse.find? (fun u => endsWithJ2 u && (dropLast3 u == m)) with
  | some u => exact Or.inl ⟨u, rfl, by simp [expectedLookup, hf]⟩
  | none => exact Or.inr ⟨rfl, by simp [expectedLookup, hf]⟩

theorem top_file_iff {es d : EntryList} {ctx : Ctx}
    (hinv : RenderInv es ctx (names es) d)
    (hfacts : MarkedFacts es (names es)) :
    ∀ m, (∃ c, lookupEntry d m = some (.file c)) ↔
      (∃ n c, lookupEntry es n = some (.file c) ∧
        m = (if endsWithJ2 n then dropLast3 n else n)) := by
  intro m
  constructor
  · rintro ⟨c, hd⟩
    rw [hinv m] at hd
    unfold expectedLookup at hd
    cases hf : (names es).reverse.find? (fun u => endsWithJ2 u && (dropLast3 u == m)) with
    | some u =>
        rw [hf] at hd
        have hpred : (endsWithJ2 u && (dropLast3 u == m)) = true := by
          simpa using List.find?_some hf
        obtain ⟨h1, h2⟩ := (Bool.and_eq_true _ _) ▸ hpred
        have hmem : u ∈ names es := by simpa using List.mem_of_find?_eq_some hf
        obtain ⟨⟨c0, hc0⟩, _, _⟩ := hfacts u hmem h1
        exact ⟨u, c0, hc0, by rw [if_pos h1]; exact (eq_of_beq h2).symm⟩
    | none =>
        rw [hf] at hd
        by_cases hcond : m ∈ names es ∧ endsWithJ2 m = true
        · rw [if_pos hcond] at hd; cases hd
        · rw [if_neg hcond] at hd
          have hmem : m ∈ names es := mem_names_of_lookup hd
          have hmf : endsWithJ2 m = false := by
            cases hb : endsWithJ2 m
            · rfl
            · exact absurd ⟨hmem, hb⟩ hcond
          exact ⟨m, c, hd, by rw [if_neg (by simp [hmf])]⟩
  · rintro ⟨n, c, hn, hm⟩
    by_cases hj : endsWithJ2 n = true
    · rw [if_pos hj] at hm
      subst hm
      have hmem : n ∈ (names es).reverse := by simpa using mem_names_of_lookup hn
      obtain ⟨u, hu⟩ := @find?_isSome_of_mem ((names es).reverse)
        (fun u => endsWithJ2 u && (dropLast3 u == dropLast3 n)) n hmem (by simp [hj])
      rw [hinv (dropLast3 n)]
      rcases expectedLookup_cases es ctx (names es) (dropLast3 n) with ⟨u2, _, hval⟩ | ⟨hf, _⟩
      · rw [hval]
        exact ⟨_, rfl⟩
      · rw [hu] at hf
        cases hf
    · rw [if_neg hj] at hm
      rw [hm, hinv n]
      rcases expectedLookup_cases es ctx (names es) n with ⟨u2, _, hval⟩ | ⟨_, hval⟩
      · rw [hval]
        exact ⟨_, rfl⟩
      · rw [hval]
        have hcond : ¬ (n ∈ names es ∧ endsWithJ2 n = true) := fun hand => hj hand.2
        rw [if_neg hcond, hn]
        exact ⟨c, rfl⟩

theorem top_dir_iff {es d : EntryList} {ctx : Ctx}
    (hinv : RenderInv es ctx (names es) d)
    (hfacts : MarkedFacts es (names es)) :
    ∀ m sub, lookupEntry d m = some (.dir sub) ↔ lookupEntry es m = some (.dir sub) := by
  intro m sub
  constructor
  · intro hd
    rw [hinv m] at hd
    unfold expectedLookup at hd
    cases hf : (names es).reverse.find? (fun u => endsWithJ2 u && (dropLast3 u == m)) with
    | some u => rw [hf] at hd; cases hd
    | none =>
        rw [hf] at hd
        by_cases hcond : m ∈ names es ∧ endsWithJ2 m = true
        · rw [if_pos hcond] at hd; cases hd
        · rw [if_neg hcond] at hd
          exact hd
  · intro hes
    rw [hinv m]
    rcases expectedLookup_cases es ctx (names es) m with ⟨u, hf, hval⟩ | ⟨_, hval⟩
    · exfalso
      have hpred : (endsWithJ2 u && (dropLast3 u == m)) = true := by
        simpa using List.find?_some hf
      obtain ⟨h1, h2⟩ := (Bool.and_eq_true _ _) ▸ hpred
      have hmem : u ∈ names es := by simpa using List.mem_of_find?_eq_some hf
      have h2' : dropLast3 u = m := eq_of_beq h2
      exact (hfacts u hmem h1).2.2 sub (h2'.symm ▸ hes)
    · rw [hval]
      have hcond : ¬ (m ∈ names es ∧ endsWithJ2 m = true) := by
        rintro ⟨hmem, hb⟩
        obtain ⟨⟨c0, hc0⟩, _, _⟩ := hfacts m hmem hb
        rw [hc0] at hes
        cases hes
      rw [if_neg hcond]
      exact hes

/-- C1 counterexample: the copy does not clear a pre-existing destination,
so for a destination that already holds `extra.txt` and an empty source the
run succeeds but the destination's file set is not the (empty) source file
set with markers stripped. -/
theorem claim_C1_cex :
    (deploy_app (some (.dir .nil)) (some (.dir (.cons "extra.txt" (.file "x") .nil))) [] =
      .ok (.cons "extra.txt" (.file "x") .nil) ∧
    ["extra.txt"] ∈ entsPaths (.cons "extra.txt" (.file "x") .nil) ∧
    ¬ ["extra.txt"] ∈ strippedPaths (.nil : EntryList)) ∧
    (deploy_app (some (.dir (.cons ".nfsx" (.file "v") .nil))) none [] = .ok .nil ∧
    [".nfsx"] ∈ strippedPaths (.cons ".nfsx" (.file "v") .nil) ∧
    ¬ [".nfsx"] ∈ entsPaths (.nil : EntryList)) :=
  ⟨⟨rfl, by decide, by decide⟩, ⟨rfl, by decide, by decide⟩⟩

/-- C1 (amended): for a well-formed source tree free of `.nfs`-prefixed
names (which `copy_tree` silently skips) deployed into a fresh
(nonexistent) destination, and provided no top-level source name carries a
doubled marker (`NoDouble` — otherwise one render's output name is itself a
marked name in the `os.listdir` snapshot and can be rendered again), a
successful run leaves the destination's file-path set equal to the source's
file-path set with the `.j2` marker stripped from top-level matching files
only; paths inside subdirectories keep their marker-suffixed names.  With a
pre-existing destination the old entries persist, since the copy never
deletes. -/
theorem claim_C1 : ∀ (es : EntryList) (ctx : Ctx) (d : EntryList),
    wfEntries es = true →
    nfsFreeEntries es = true →
    NoDouble (names es) →
    deploy_app (some (.dir es)) none ctx = .ok d →
    ∀ p, p ∈ entsPaths d ↔ p ∈ strippedPaths es := by
  intro es ctx d hwf hfree hnd h
  obtain ⟨d1, hc, hr⟩ := deploy_app_ok_parts h
  have hnil : copyEs es (destEntries none) = .ok es := by
    rw [show destEntries none = .nil from rfl, copyEs_nil_of_wf hwf,
      nfsFilter_eq_of_free.2 es hfree]
  have heq : es = d1 := Except.ok.inj (hnil.symm.trans hc)
  subst heq
  have hnodup := nodup_names_of_wf es hwf
  have hinv0 : RenderInv es ctx [] es := fun m => (expectedLookup_nil es ctx m).symm
  have hfacts0 : MarkedFacts es [] := by
    intro u hu
    simp at hu
  obtain ⟨hinv, hfacts⟩ := renderPass_ok_inv (names es) [] es es d ctx (by simp) hnodup
    hnd hinv0 hfacts0 hr
  have hwfd : wfEntries d = true := renderPass_wf (names es) ctx es d hwf hr
  intro p
  rw [mem_entsPaths d hwfd p, mem_strippedPaths es hwf p]
  constructor
  · rintro (⟨m, c, hpm, hdm⟩ | ⟨m, sub, tl, hpm, hdm, htl⟩)
    · rcases (top_file_iff hinv hfacts m).mp ⟨c, hdm⟩ with ⟨n, c0, hn, hm⟩
      exact Or.inl ⟨n, c0, hn, by rw [hpm, hm]⟩
    · exact Or.inr ⟨m, sub, tl, hpm, (top_dir_iff hinv hfacts m sub).mp hdm, htl⟩
  · rintro (⟨n, c, hn, hpm⟩ | ⟨m, sub, tl, hpm, hdm, htl⟩)
    · rcases (top_file_iff hinv hfacts (if endsWithJ2 n then dropLast3 n else n)).mpr
        ⟨n, c, hn, rfl⟩ with ⟨c1, hd1⟩
      exact Or.inl ⟨_, c1, hpm, hd1⟩
    · exact Or.inr ⟨m, sub, tl, hpm, (top_dir_iff hinv hfacts m sub).mpr hdm, htl⟩

/-- Witness for C1 at a concrete source: `a.txt.j2` is stripped at top
level, `b.txt` is kept, and the nested `sub/c.j2` keeps its marker. -/
theorem claim_C1_witness :
    (["a.txt"] ∈ entsPaths (.cons "b.txt" (.file "z")
        (.cons "sub" (.dir (.cons "c.j2" (.file "q") .nil))
          (.cons "a.txt" (.file "hi") .nil))) ↔
      ["a.txt"] ∈ strippedPaths (.cons "a.txt.j2" (.file "hi")
        (.cons "b.txt" (.file "z")
          (.cons "sub" (.dir (.cons "c.j2" (.file "q") .nil)) .nil)))) :=
  claim_C1 (.cons "a.txt.j2" (.file "hi") (.cons "b.txt" (.file "z")
      (.cons "sub" (.dir (.cons "c.j2" (.file "q") .nil)) .nil))) []
    (.cons "b.txt" (.file "z") (.cons "sub" (.dir (.cons "c.j2" (.file "q") .nil))
      (.cons "a.txt" (.file "hi") .nil)))
    (by decide) (by decide) (by unfold NoDouble; decide) rfl ["a.txt"]

/-! ### Copy lemmas for the second-run analysis -/

theorem copy_idem :
    (∀ t : FSTree, wfTree t = true → ∀ (n : String) old t', copyT n t old = .ok t' →
      copyT n t (some t') = .ok t') ∧
    (∀ src : EntryList, wfEntries src = true → ∀ dst r, copyEs src dst = .ok r →
      copyEs src r = .ok r) := by
  apply fs_mutual_induction
  · intro c _ n old t' h
    cases old with
    | none => cases h; rfl
    | some u =>
        cases u with
        | file c2 => cases h; rfl
        | dir d =>
            simp only [copyT] at h
            cases hl : lookupEntry d n with
            | none =>
                simp only [hl] at h
                cases h
                have hl2 : lookupEntry (setEntry d n (.file c)) n = some (.file c) := by
                  rw [lookup_setEntry]
                  simp
                simp only [copyT, hl2]
                rw [setEntry_self (setEntry d n (.file c)) n (.file c) hl2]
            | some v =>
                cases v with
                | file c2 =>
                    simp only [hl] at h
                    cases h
                    have hl2 : lookupEntry (setEntry d n (.file c)) n = some (.file c) := by
                      rw [lookup_setEntry]
                      simp
                    simp only [copyT, hl2]
                    rw [setEntry_self (setEntry d n (.file c)) n (.file c) hl2]
                | dir dd =>
                    simp only [hl] at h
                    exact Except.noConfusion h
  · intro es ih hwf n old t' h
    have hwfes : wfEntries es = true := by simpa [wfTree] using hwf
    cases old with
    | none =>
        simp only [copyT] at h
        cases hc : copyEs es .nil with
        | error p =>
            obtain ⟨e, pp⟩ := p
            rw [hc] at h
            cases h
        | ok r =>
            simp only [hc] at h
            cases h
            simp only [copyT]
            rw [ih hwfes .nil r hc]
    | some u =>
        cases u with
        | file c => simp [copyT] at h
        | dir bs =>
            simp only [copyT] at h
            cases hc : copyEs es bs with
            | error p =>
                obtain ⟨e, pp⟩ := p
                rw [hc] at h
                cases h
            | ok r =>
                simp only [hc] at h
                cases h
                simp only [copyT]
                rw [ih hwfes bs r hc]
  · intro _ dst r h
    cases h
    rfl
  · intro n t rest iht ihr hwf dst r h
    rcases wfEntries_cons.mp hwf with ⟨hnotin, hwt, hwr⟩
    simp only [copyEs] at h
    by_cases hnfs : startsWithNfs n
    · rw [if_pos hnfs] at h
      simp only [copyEs, if_pos hnfs]
      exact ihr hwr dst r h
    · rw [if_neg hnfs] at h
      cases hc : copyT n t (lookupEntry dst n) with
      | error p =>
          obtain ⟨e, t1⟩ := p
          rw [hc] at h
          cases h
      | ok t1 =>
          simp only [hc] at h
          have hlook : lookupEntry r n = some t1 := by
            rw [copyEs_preserve rest _ r n h hnotin, lookup_setEntry]
            simp
          have hstep : copyT n t (some t1) = .ok t1 := iht hwt n (lookupEntry dst n) t1 hc
          simp only [copyEs, if_neg hnfs, hlook, hstep]
          rw [setEntry_self r n t1 hlook]
          exact ihr hwr (setEntry dst n t1) r h

theorem copyEs_lookup_dir_merge : ∀ (src dst r : EntryList) (n : String) (sub bs : EntryList),
    wfEntries src = true → copyEs src dst = .ok r →
    lookupEntry src n = some (.dir sub) → lookupEntry dst n = some (.dir bs) →
    copyEs sub bs = .ok bs →
    lookupEntry r n = some (.dir bs) := by
  intro src
  induction src using entryListInduction with
  | nil => intro dst r n sub bs _ _ hl _ _; simp [lookupEntry] at hl
  | cons a t rest ih =>
      intro dst r n sub bs hwf h hl hd hmerge
      rcases wfEntries_cons.mp hwf with ⟨hnotin, hwt, hwr⟩
      simp only [copyEs] at h
      by_cases hnfs : startsWithNfs a
      · rw [if_pos hnfs] at h
        by_cases han : a = n
        · subst han
          rw [copyEs_preserve rest dst r a h hnotin]
          exact hd
        · simp only [lookupEntry, if_neg han] at hl
          exact ih dst r n sub bs hwr h hl hd hmerge
      · rw [if_neg hnfs] at h
        by_cases han : a = n
        · subst han
          simp only [lookupEntry, if_pos rfl] at hl
          have ht : t = .dir sub := Option.some.inj hl
          subst ht
          have hct : copyT a (.dir sub) (lookupEntry dst a) = .ok (.dir bs) := by
            rw [hd]
            simp only [copyT, hmerge]
          simp only [hct] at h
          rw [copyEs_preserve rest _ r a h hnotin, lookup_setEntry]
          simp
        · simp only [lookupEntry, if_neg han] at hl
          cases hc : copyT a t (lookupEntry dst a) with
          | error p =>
              obtain ⟨e, t1⟩ := p
              rw [hc] at h
              cases h
          | ok t1 =>
              simp only [hc] at h
              have hd' : lookupEntry (setEntry dst a t1) n = some (.dir bs) := by
                rw [lookup_setEntry]
                simp [han, hd]
              exact ih (setEntry dst a t1) r n sub bs hwr h hl hd' hmerge

theorem copyEs_names_super : ∀ (src dst r : EntryList) (m : String),
    copyEs src dst = .ok r → m ∈ names dst → m ∈ names r := by
  intro src
  induction src using entryListInduction with
  | nil =>
      intro dst r m h hm
      cases h
      exact hm
  | cons a t rest ih =>
      intro dst r m h hm
      simp only [copyEs] at h
      by_cases hnfs : startsWithNfs a
      · rw [if_pos hnfs] at h
        exact ih dst r m h hm
      · rw [if_neg hnfs] at h
        cases hc : copyT a t (lookupEntry dst a) with
        | error p =>
            obtain ⟨e, t1⟩ := p
            rw [hc] at h
            cases h
        | ok t1 =>
            simp only [hc] at h
            exact ih _ r m h ((mem_names_setEntry a t1 dst m).mpr (Or.inr hm))

theorem wf_lookup : ∀ (es : EntryList) (m : String) (u : FSTree),
    wfEntries es = true → lookupEntry es m = some u → wfTree u = true := by
  intro es
  induction es using entryListInduction with
  | nil => intro m u _ h; cases h
  | cons a t rest ih =>
      intro m u hwf h
      rcases wfEntries_cons.mp hwf with ⟨_, hwt, hwr⟩
      by_cases ham : a = m
      · subst ham
        simp only [lookupEntry, if_pos rfl] at h
        cases h
        exact hwt
      · simp only [lookupEntry, if_neg ham] at h
        exact ih m u hwr h

theorem copy_wf :
    (∀ t : FSTree, wfTree t = true → ∀ (n : String) old t',
      (match old with | some u => wfTree u = true | none => True) →
      copyT n t old = .ok t' → wfTree t' = true) ∧
    (∀ src : EntryList, wfEntries src = true → ∀ dst r, wfEntries dst = true →
      copyEs src dst = .ok r → wfEntries r = true) := by
  apply fs_mutual_induction
  · intro c _ n old t' hold h
    cases old with
    | none => cases h; rfl
    | some u =>
        cases u with
        | file c2 => cases h; rfl
        | dir d =>
            simp only [copyT] at h
            have hwd : wfEntries d = true := by simpa [wfTree] using hold
            cases hl : lookupEntry d n with
            | none =>
                simp only [hl] at h
                cases h
                simpa [wfTree] using wf_setEntry n (.file c) d hwd rfl
            | some v =>
                cases v with
                | file c2 =>
                    simp only [hl] at h
                    cases h
                    simpa [wfTree] using wf_setEntry n (.file c) d hwd rfl
                | dir dd =>
                    simp only [hl] at h
                    exact Except.noConfusion h
  · intro es ih hwf n old t' hold h
    have hwfes : wfEntries es = true := by simpa [wfTree] using hwf
    cases old with
    | none =>
        simp only [copyT] at h
        cases hc : copyEs es .nil with
        | error p =>
            obtain ⟨e, pp⟩ := p
            rw [hc] at h
            cases h
        | ok r =>
            simp only [hc] at h
            cases h
            simpa [wfTree] using ih hwfes .nil r rfl hc
    | some u =>
        cases u with
        | file c => simp [copyT] at h
        | dir bs =>
            simp only [copyT] at h
            cases hc : copyEs es bs with
            | error p =>
                obtain ⟨e, pp⟩ := p
                rw [hc] at h
                cases h
            | ok r =>
                simp only [hc] at h
                cases h
                have hwbs : wfEntries bs = true := by simpa [wfTree] using hold
                simpa [wfTree] using ih hwfes bs r hwbs hc
  · intro _ dst r hdst h
    cases h
    exact hdst
  · intro n t rest iht ihr hwf dst r hdst h
    rcases wfEntries_cons.mp hwf with ⟨hnotin, hwt, hwr⟩
    simp only [copyEs] at h
    by_cases hnfs : startsWithNfs n
    · rw [if_pos hnfs] at h
      exact ihr hwr dst r hdst h
    · rw [if_neg hnfs] at h
      cases hc : copyT n t (lookupEntry dst n) with
      | error p =>
          obtain ⟨e, t1⟩ := p
          rw [hc] at h
          cases h
      | ok t1 =>
          simp only [hc] at h
          have hwt1 : wfTree t1 = true := by
            cases hold : lookupEntry dst n with
            | none =>
                rw [hold] at hc
                exact iht hwt n none t1 trivial hc
            | some u =>
                rw [hold] at hc
                exact iht hwt n (some u) t1 (wf_lookup dst n u hdst hold) hc
          exact ihr hwr (setEntry dst n t1) r (wf_setEntry n t1 dst hdst hwt1) h

theorem copyEs_total : ∀ (src dst : EntryList),
    wfEntries src = true →
    (∀ n sub, startsWithNfs n = false → lookupEntry src n = some (.dir sub) →
      ∃ bs, lookupEntry dst n = some (.dir bs) ∧ copyEs sub bs = .ok bs) →
    (∀ n c, startsWithNfs n = false → lookupEntry src n = some (.file c) →
      ∀ sub, lookupEntry dst n ≠ some (.dir sub)) →
    ∃ r, copyEs src dst = .ok r := by
  intro src
  induction src using entryListInduction with
  | nil => intro dst _ _ _; exact ⟨dst, rfl⟩
  | cons a t rest ih =>
      intro dst hwf hdir hfile
      rcases wfEntries_cons.mp hwf with ⟨hnotin, hwt, hwr⟩
      by_cases hnfs : startsWithNfs a
      · have hdir2 : ∀ n sub, startsWithNfs n = false → lookupEntry rest n = some (.dir sub) →
            ∃ bs, lookupEntry dst n = some (.dir bs) ∧ copyEs sub bs = .ok bs := by
          intro n sub hn hl
          have han : ¬ a = n := fun he => by rw [he, hn] at hnfs; cases hnfs
          exact hdir n sub hn (by simp [lookupEntry, han, hl])
        have hfile2 : ∀ n c, startsWithNfs n = false → lookupEntry rest n = some (.file c) →
            ∀ sub, lookupEntry dst n ≠ some (.dir sub) := by
          intro n c hn hl
          have han : ¬ a = n := fun he => by rw [he, hn] at hnfs; cases hnfs
          exact hfile n c hn (by simp [lookupEntry, han, hl])
        obtain ⟨r, hr⟩ := ih dst hwr hdir2 hfile2
        exact ⟨r, by simp only [copyEs, if_pos hnfs, hr]⟩
      · have haf : startsWithNfs a = false := startsWithNfs_false_of_not hnfs
        have hrest : ∀ (t1 : FSTree),
            (∀ n sub, startsWithNfs n = false → lookupEntry rest n = some (.dir sub) →
              ∃ bs, lookupEntry (setEntry dst a t1) n = some (.dir bs) ∧
                copyEs sub bs = .ok bs) ∧
            (∀ n c, startsWithNfs n = false → lookupEntry rest n = some (.file c) →
              ∀ sub, lookupEntry (setEntry dst a t1) n ≠ some (.dir sub)) := by
          intro t1
          constructor
          · intro n sub hn hl
            have hna : a ≠ n := fun he => hnotin (he ▸ mem_names_of_lookup hl)
            rw [lookup_setEntry, if_neg hna]
            exact hdir n sub hn (by simp [lookupEntry, hna, hl])
          · intro n c hn hl sub
            have hna : a ≠ n := fun he => hnotin (he ▸ mem_names_of_lookup hl)
            rw [lookup_setEntry, if_neg hna]
            exact hfile n c hn (by simp [lookupEntry, hna, hl]) sub
        cases t with
        | file c =>
            have hnd : ∀ sub, lookupEntry dst a ≠ some (.dir sub) :=
              hfile a c haf (by simp [lookupEntry])
            have hct : copyT a (.file c) (lookupEntry dst a) = .ok (.file c) := by
              cases hda : lookupEntry dst a with
              | none => rfl
              | some u =>
                  cases u with
                  | file c2 => rfl
                  | dir dd => exact absurd hda (hnd dd)
            obtain ⟨r, hr⟩ := ih (setEntry dst a (.file c)) hwr
              (hrest (.file c)).1 (hrest (.file c)).2
            exact ⟨r, by simp only [copyEs, if_neg hnfs, hct, hr]⟩
        | dir sub =>
            obtain ⟨bs, hda, hmerge⟩ := hdir a sub haf (by simp [lookupEntry])
            have hct : copyT a (.dir sub) (lookupEntry dst a) = .ok (.dir bs) := by
              rw [hda]
              simp only [copyT, hmerge]
            obtain ⟨r, hr⟩ := ih (setEntry dst a (.dir bs)) hwr
              (hrest (.dir bs)).1 (hrest (.dir bs)).2
            exact ⟨r, by simp only [copyEs, if_neg hnfs, hct, hr]⟩

theorem getPath_congr {a b : EntryList} (h : ∀ m, lookupEntry a m = lookupEntry b m) :
    ∀ p, p ≠ [] → getPath p a = getPath p b := by
  intro p hp
  cases p with
  | nil => exact absurd rfl hp
  | cons n rest =>
      cases rest with
      | nil => simpa [getPath] using h n
      | cons x y => simp [getPath, h n]

/-- C7 counterexample: after deploying a source holding the template `a.j2`,
the second run's copy re-introduces `a.j2` into the destination, the
`os.listdir` snapshot therefore contains a marked name, and the render loop
does real work again (it deletes the re-copied template rather than leaving
the state untouched) — the loop does not "find nothing to do". -/
theorem claim_C7_cex :
    deploy_app (some (.dir (.cons "a.j2" (.file "x") .nil))) none [] =
      .ok (.cons "a" (.file "x") .nil) ∧
    copyEs (.cons "a.j2" (.file "x") .nil) (.cons "a" (.file "x") .nil) =
      .ok (.cons "a" (.file "x") (.cons "a.j2" (.file "x") .nil)) ∧
    "a.j2" ∈ names (.cons "a" (.file "x") (.cons "a.j2" (.file "x") .nil)) ∧
    endsWithJ2 "a.j2" = true ∧
    render_template (.cons "a" (.file "x") (.cons "a.j2" (.file "x") .nil)) "a.j2" "a" [] ≠
      .ok (.cons "a" (.file "x") (.cons "a.j2" (.file "x") .nil)) :=
  ⟨rfl, rfl, by decide, by decide, by decide⟩

/-- C7 (amended): for a well-formed source without doubled markers deployed
into a fresh destination, the destination after the first successful run
holds no top-level marked names, and a second run of the same invocation
succeeds and leaves the destination extensionally unchanged — every path
resolves to the same entry as after the first run.  The copy does
re-introduce the source's templates and the render loop re-renders them,
but the outputs are identical, so the end state is the same. -/
theorem claim_C7 : ∀ (es : EntryList) (ctx : Ctx) (d : EntryList),
    wfEntries es = true →
    NoDouble (names es) →
    deploy_app (some (.dir es)) none ctx = .ok d →
    (∀ m ∈ names d, endsWithJ2 m = false) ∧
    ∃ d2, deploy_app (some (.dir es)) (some (.dir d)) ctx = .ok d2 ∧
      ∀ p, p ≠ [] → getPath p d2 = getPath p d := by
  intro es ctx d hwf hnd h
  obtain ⟨d1, hc1, hr1⟩ := deploy_app_ok_parts h
  have heq : nfsFilterE es = d1 := Except.ok.inj ((copyEs_nil_of_wf hwf).symm.trans hc1)
  subst heq
  have hwfF : wfEntries (nfsFilterE es) = true := wf_nfsFilter.2 es hwf
  have hndF : NoDouble (names (nfsFilterE es)) := by
    intro m hm hj
    exact hnd m ((mem_names_nfsFilter es m).mp hm).1 hj
  have hnodupF := nodup_names_of_wf (nfsFilterE es) hwfF
  obtain ⟨hinv1, hfacts1⟩ := renderPass_ok_inv (names (nfsFilterE es)) [] (nfsFilterE es)
    (nfsFilterE es) d ctx (by simp) hnodupF hndF
    (fun m => (expectedLookup_nil (nfsFilterE es) ctx m).symm)
    (by intro u hu; simp at hu) hr1
  have hwfd : wfEntries d = true :=
    renderPass_wf (names (nfsFilterE es)) ctx (nfsFilterE es) d hwfF hr1
  have hdnomark : ∀ m ∈ names d, endsWithJ2 m = false := by
    intro m hm
    cases hb : endsWithJ2 m
    · rfl
    · exfalso
      have hsome := (mem_names_iff_lookup d m).mp hm
      rw [hinv1 m] at hsome
      rcases expectedLookup_cases (nfsFilterE es) ctx (names (nfsFilterE es)) m with
        ⟨u, hf, hval⟩ | ⟨hf, hval⟩
      · have hpred : (endsWithJ2 u && (dropLast3 u == m)) = true := by
          simpa using List.find?_some hf
        obtain ⟨h1, h2⟩ := (Bool.and_eq_true _ _) ▸ hpred
        have hmem : u ∈ names (nfsFilterE es) := by
          simpa using List.mem_of_find?_eq_some hf
        have hd2 := hndF u hmem h1
        rw [eq_of_beq h2] at hd2
        rw [hd2] at hb
        cases hb
      · rw [hval] at hsome
        by_cases hcond : m ∈ names (nfsFilterE es) ∧ endsWithJ2 m = true
        · rw [if_pos hcond] at hsome
          simp at hsome
        · rw [if_neg hcond] at hsome
          exact hcond ⟨(mem_names_iff_lookup (nfsFilterE es) m).mpr hsome, hb⟩
  refine ⟨hdnomark, ?_⟩
  have hEsF : ∀ u, startsWithNfs u = false →
      lookupEntry (nfsFilterE es) u = (lookupEntry es u).map nfsFilterT := by
    intro u hn
    rw [lookup_nfsFilter es u, if_neg (by simp [hn])]
  have hFfile : ∀ u c, lookupEntry (nfsFilterE es) u = some (.file c) →
      lookupEntry es u = some (.file c) ∧ startsWithNfs u = false := by
    intro u c hu
    by_cases hn : startsWithNfs u
    · rw [lookup_nfsFilter es u, if_pos hn] at hu
      cases hu
    · have hsf : startsWithNfs u = false := startsWithNfs_false_of_not hn
      rw [hEsF u hsf] at hu
      cases hl : lookupEntry es u with
      | none => rw [hl] at hu; cases hu
      | some v =>
          rw [hl] at hu
          cases v with
          | file c2 =>
              have hu2 : (some (FSTree.file c2) : Option FSTree) = some (.file c) := hu
              exact ⟨hu2, hsf⟩
          | dir s2 =>
              have hu2 : (some (FSTree.dir (nfsFilterE s2)) : Option FSTree) =
                  some (.file c) := hu
              exact FSTree.noConfusion (Option.some.inj hu2)
  have hFdir : ∀ u sub, lookupEntry (nfsFilterE es) u = some (.dir sub) →
      ∃ sub0, lookupEntry es u = some (.dir sub0) ∧ sub = nfsFilterE sub0 := by
    intro u sub hu
    by_cases hn : startsWithNfs u
    · rw [lookup_nfsFilter es u, if_pos hn] at hu
      cases hu
    · rw [hEsF u (startsWithNfs_false_of_not hn)] at hu
      cases hl : lookupEntry es u with
      | none => rw [hl] at hu; cases hu
      | some v =>
          rw [hl] at hu
          cases v with
          | file c2 =>
              have hu2 : (some (FSTree.file c2) : Option FSTree) = some (.dir sub) := hu
              exact FSTree.noConfusion (Option.some.inj hu2)
          | dir s2 =>
              have hu2 : (some (FSTree.dir (nfsFilterE s2)) : Option FSTree) =
                  some (.dir sub) := hu
              exact ⟨s2, rfl, (FSTree.dir.inj (Option.some.inj hu2)).symm⟩
  have hdir2 : ∀ n sub, startsWithNfs n = false → lookupEntry es n = some (.dir sub) →
      ∃ bs, lookupEntry d n = some (.dir bs) ∧ copyEs sub bs = .ok bs := by
    intro n sub hn hl
    have hF : lookupEntry (nfsFilterE es) n = some (.dir (nfsFilterE sub)) := by
      rw [hEsF n hn, hl]
      rfl
    refine ⟨nfsFilterE sub, (top_dir_iff hinv1 hfacts1 n (nfsFilterE sub)).mpr hF, ?_⟩
    have hwsub : wfEntries sub = true := by
      have := wf_lookup es n (.dir sub) hwf hl
      simpa [wfTree] using this
    exact copy_idem.2 sub hwsub .nil (nfsFilterE sub) (copyEs_nil_of_wf hwsub)
  have hfile2 : ∀ n c, startsWithNfs n = false → lookupEntry es n = some (.file c) →
      ∀ sub, lookupEntry d n ≠ some (.dir sub) := by
    intro n c hn hl sub hbad
    have hF : lookupEntry (nfsFilterE es) n = some (.dir sub) :=
      (top_dir_iff hinv1 hfacts1 n sub).mp hbad
    have hFf : lookupEntry (nfsFilterE es) n = some (.file c) := by
      rw [hEsF n hn, hl]
      rfl
    rw [hFf] at hF
    exact FSTree.noConfusion (Option.some.inj hF)
  obtain ⟨m2, hcopy2⟩ := copyEs_total es d hwf hdir2 hfile2
  have hwfm2 : wfEntries m2 = true := copy_wf.2 es hwf d m2 hwfd hcopy2
  have hm2file : ∀ u c, lookupEntry (nfsFilterE es) u = some (.file c) →
      lookupEntry m2 u = some (.file c) := by
    intro u c hu
    obtain ⟨hes, hn⟩ := hFfile u c hu
    refine copyEs_lookup_file es d m2 u c hwf hcopy2 hes hn ?_
    intro sub hbad
    have hF := (top_dir_iff hinv1 hfacts1 u sub).mp hbad
    rw [hu] at hF
    exact FSTree.noConfusion (Option.some.inj hF)
  have hm2dir : ∀ u sub, lookupEntry (nfsFilterE es) u = some (.dir sub) →
      lookupEntry m2 u = some (.dir sub) := by
    intro u sub hu
    obtain ⟨sub0, hes, hsubeq⟩ := hFdir u sub hu
    subst hsubeq
    have hd2 : lookupEntry d u = some (.dir (nfsFilterE sub0)) :=
      (top_dir_iff hinv1 hfacts1 u (nfsFilterE sub0)).mpr hu
    have hwsub : wfEntries sub0 = true := by
      have := wf_lookup es u (.dir sub0) hwf hes
      simpa [wfTree] using this
    exact copyEs_lookup_dir_merge es d m2 u sub0 (nfsFilterE sub0) hwf hcopy2 hes hd2
      (copy_idem.2 sub0 hwsub .nil (nfsFilterE sub0) (copyEs_nil_of_wf hwsub))
  have hm2names : ∀ m, m ∈ names m2 ↔ m ∈ names d ∨ m ∈ names (nfsFilterE es) := by
    intro m
    constructor
    · intro hm
      rcases copyEs_names es d m2 m hcopy2 hm with h1 | ⟨h1, h2⟩
      · exact Or.inl h1
      · exact Or.inr ((mem_names_nfsFilter es m).mpr ⟨h1, h2⟩)
    · rintro (hm | hm)
      · exact copyEs_names_super es d m2 m hcopy2 hm
      · rw [mem_names_iff_lookup]
        have hsome := (mem_names_iff_lookup (nfsFilterE es) m).mp hm
        cases hl : lookupEntry (nfsFilterE es) m with
        | none => rw [hl] at hsome; simp at hsome
        | some u =>
            cases u with
            | file c =>
                rw [hm2file m c hl]
                rfl
            | dir sub =>
                rw [hm2dir m sub hl]
                rfl
  have hmarkedm2 : ∀ m ∈ names m2, endsWithJ2 m = true → m ∈ names (nfsFilterE es) := by
    intro m hm hj
    rcases (hm2names m).mp hm with hmd | hms
    · rw [hdnomark m hmd] at hj
      cases hj
    · exact hms
  have hndm2 : NoDouble (names m2) := fun m hm hj => hndF m (hmarkedm2 m hm hj) hj
  have hcond2 : ∀ u ∈ names m2, endsWithJ2 u = true →
      (∃ c, lookupEntry m2 u = some (.file c)) ∧
      ¬ (dropLast3 u = "" ∨ dropLast3 u = "." ∨ dropLast3 u = "..") ∧
      (∀ sub, lookupEntry m2 (dropLast3 u) ≠ some (.dir sub)) := by
    intro u hu hj
    have huF : u ∈ names (nfsFilterE es) := hmarkedm2 u hu hj
    obtain ⟨⟨c, hcu⟩, hne, hnodir⟩ := hfacts1 u huF hj
    refine ⟨⟨c, hm2file u c hcu⟩, hne, ?_⟩
    intro sub hbad
    by_cases hnfs_s : startsWithNfs (dropLast3 u)
    · rw [copyEs_preserve_nfs es d m2 (dropLast3 u) hcopy2 (by simpa using hnfs_s)] at hbad
      exact hnodir sub ((top_dir_iff hinv1 hfacts1 (dropLast3 u) sub).mp hbad)
    · have hsf : startsWithNfs (dropLast3 u) = false := startsWithNfs_false_of_not hnfs_s
      cases hl : lookupEntry es (dropLast3 u) with
      | none =>
          have hmem : ¬ dropLast3 u ∈ names es := by
            intro hx
            have hx2 := (mem_names_iff_lookup es (dropLast3 u)).mp hx
            rw [hl] at hx2
            simp at hx2
          rw [copyEs_preserve es d m2 (dropLast3 u) hcopy2 hmem] at hbad
          exact hnodir sub ((top_dir_iff hinv1 hfacts1 (dropLast3 u) sub).mp hbad)
      | some v =>
          cases v with
          | file c2 =>
              have hFf : lookupEntry (nfsFilterE es) (dropLast3 u) = some (.file c2) := by
                rw [hEsF (dropLast3 u) hsf, hl]
                rfl
              rw [hm2file (dropLast3 u) c2 hFf] at hbad
              cases hbad
          | dir s2 =>
              have hFd : lookupEntry (nfsFilterE es) (dropLast3 u) =
                  some (.dir (nfsFilterE s2)) := by
                rw [hEsF (dropLast3 u) hsf, hl]
                rfl
              exact hnodir (nfsFilterE s2) hFd
  obtain ⟨d2, hrp2, hinv2, _⟩ := renderPass_spec (names m2) [] m2 m2 ctx (by simp)
    (nodup_names_of_wf m2 hwfm2) hndm2 (fun m => (expectedLookup_nil m2 ctx m).symm)
    (by intro u hu; simp at hu) hcond2
  refine ⟨d2, ?_, ?_⟩
  · show deploy_app (some (.dir es)) (some (.dir d)) ctx = .ok d2
    simp only [deploy_app, hcopy2, hrp2]
  · refine getPath_congr ?_
    intro m
    rw [hinv2 m, hinv1 m]
    rcases expectedLookup_cases m2 ctx (names m2) m with ⟨u1, hf1, hval1⟩ | ⟨hf1, hval1⟩
    · rcases expectedLookup_cases (nfsFilterE es) ctx (names (nfsFilterE es)) m with
        ⟨u2, hf2, hval2⟩ | ⟨hf2, hval2⟩
      · rw [hval1, hval2]
        have hp1 : (endsWithJ2 u1 && (dropLast3 u1 == m)) = true := by
          simpa using List.find?_some hf1
        obtain ⟨h11, h12⟩ := (Bool.and_eq_true _ _) ▸ hp1
        have hp2 : (endsWithJ2 u2 && (dropLast3 u2 == m)) = true := by
          simpa using List.find?_some hf2
        obtain ⟨h21, h22⟩ := (Bool.and_eq_true _ _) ▸ hp2
        have hu12 : u1 = u2 :=
          dropLast3_inj h11 h21 ((eq_of_beq h12).trans (eq_of_beq h22).symm)
        subst hu12
        have hu1F : u1 ∈ names (nfsFilterE es) :=
          hmarkedm2 u1 (by simpa using List.mem_of_find?_eq_some hf1) h11
        obtain ⟨⟨c, hcu⟩, _, _⟩ := hfacts1 u1 hu1F h11
        have hfc1 : fileContentD m2 u1 = c := by simp [fileContentD, hm2file u1 c hcu]
        have hfc2 : fileContentD (nfsFilterE es) u1 = c := by simp [fileContentD, hcu]
        rw [hfc1, hfc2]
      · exfalso
        have hp1 : (endsWithJ2 u1 && (dropLast3 u1 == m)) = true := by
          simpa using List.find?_some hf1
        obtain ⟨h11, _⟩ := (Bool.and_eq_true _ _) ▸ hp1
        have hu1F : u1 ∈ names (nfsFilterE es) :=
          hmarkedm2 u1 (by simpa using List.mem_of_find?_eq_some hf1) h11
        exact List.find?_eq_none.mp hf2 u1 (by simpa using hu1F) hp1
    · rcases expectedLookup_cases (nfsFilterE es) ctx (names (nfsFilterE es)) m with
        ⟨u2, hf2, hval2⟩ | ⟨hf2, hval2⟩
      · exfalso
        have hp2 : (endsWithJ2 u2 && (dropLast3 u2 == m)) = true := by
          simpa using List.find?_some hf2
        obtain ⟨h21, _⟩ := (Bool.and_eq_true _ _) ▸ hp2
        have hu2F : u2 ∈ names (nfsFilterE es) := by
          simpa using List.mem_of_find?_eq_some hf2
        have hu2m2 : u2 ∈ names m2 := (hm2names u2).mpr (Or.inr hu2F)
        exact List.find?_eq_none.mp hf1 u2 (by simpa using hu2m2) hp2
      · rw [hval1, hval2]
        have hdm := hinv1 m
        rw [hval2] at hdm
        have heqlook : lookupEntry m2 m = lookupEntry (nfsFilterE es) m := by
          by_cases hnfs_m : startsWithNfs m
          · have hFnomem : ¬ m ∈ names (nfsFilterE es) := by
              intro hx
              have hx2 := ((mem_names_nfsFilter es m).mp hx).2
              rw [hnfs_m] at hx2
              cases hx2
            rw [copyEs_preserve_nfs es d m2 m hcopy2 (by simpa using hnfs_m), hdm,
              if_neg (fun hand => hFnomem hand.1)]
          · have hsf : startsWithNfs m = false := startsWithNfs_false_of_not hnfs_m
            cases hl : lookupEntry es m with
            | none =>
                have hmem : ¬ m ∈ names es := by
                  intro hx
                  have hx2 := (mem_names_iff_lookup es m).mp hx
                  rw [hl] at hx2
                  simp at hx2
                have hFnomem : ¬ m ∈ names (nfsFilterE es) :=
                  fun hx => hmem ((mem_names_nfsFilter es m).mp hx).1
                rw [copyEs_preserve es d m2 m hcopy2 hmem, hdm,
                  if_neg (fun hand => hFnomem hand.1)]
            | some v =>
                cases v with
                | file c =>
                    have hFf : lookupEntry (nfsFilterE es) m = some (.file c) := by
                      rw [hEsF m hsf, hl]
                      rfl
                    rw [hm2file m c hFf, hFf]
                | dir s2 =>
                    have hFd : lookupEntry (nfsFilterE es) m =
                        some (.dir (nfsFilterE s2)) := by
                      rw [hEsF m hsf, hl]
                      rfl
                    rw [hm2dir m (nfsFilterE s2) hFd, hFd]
        by_cases hj : endsWithJ2 m = true
        · by_cases hmF : m ∈ names (nfsFilterE es)
          · rw [if_pos ⟨(hm2names m).mpr (Or.inr hmF), hj⟩, if_pos ⟨hmF, hj⟩]
          · have hmm2 : ¬ m ∈ names m2 := by
              intro hx
              rcases (hm2names m).mp hx with hxd | hxe
              · rw [hdnomark m hxd] at hj
                cases hj
              · exact hmF hxe
            rw [if_neg (fun hand => hmm2 hand.1), if_neg (fun hand => hmF hand.1)]
            exact heqlook
        · rw [if_neg (fun hand => hj hand.2), if_neg (fun hand => hj hand.2)]
          exact heqlook

/-- Witness for C7 at a concrete source: deploying `g.j2` leaves `g` only,
and the second run returns the same destination at every path. -/
theorem claim_C7_witness :
    (∀ m ∈ names (.cons "g" (.file "hi") .nil), endsWithJ2 m = false) ∧
    ∃ d2, deploy_app (some (.dir (.cons "g.j2" (.file "hi") .nil)))
        (some (.dir (.cons "g" (.file "hi") .nil))) [] = .ok d2 ∧
      ∀ p, p ≠ [] → getPath p d2 = getPath p (.cons "g" (.file "hi") .nil) :=
  claim_C7 (.cons "g.j2" (.file "hi") .nil) [] (.cons "g" (.file "hi") .nil)
    (by decide) (by unfold NoDouble; decide) rfl
